import Mathlib

/-!
# Verification of the OpenContext core against its specification

This file gives a shallow embedding, in Lean, of the core of the
`opencontext` repository:

* `src/shared/gemini_client.py`: the `_parse_json` response-recovery
  pipeline (markdown-fence stripping, direct JSON parsing, textual
  repair, balanced-brace extraction), the `_repair_json` heuristics and
  the retry/backoff loop of `generate`;
* `src/opencontext/models.py`: the `CompanyContext` data model with its
  nested `VoicePersona` / `VisualIdentity` / `AuthorInfo` records,
  `CompanyContext.from_dict`, and `generate_slug`;
* `src/opencontext/opencontext.py`: `basic_company_detection`, URL
  normalisation, and the `get_company_context` entry point.

Python's `json.loads` is modelled by an executable recursive-descent
recogniser over the RFC 8259 grammar (plus the `NaN` / `Infinity`
extensions Python accepts); string and number tokens are kept as their
raw source text, since every statement below only ever compares one
parse result with another.  Stateful aspects (network attempts, sleeps,
random jitter, environment variables) are modelled by explicit
parameters: the outcome of each remote attempt, the jitter drawn before
each retry, and the environment are inputs of the embedded functions,
and the performed sleeps are returned as an explicit list.
-/

/-! ## Basic string utilities (Python semantics) -/

/-- Does `pre` occur at the start of `cs`? (Python `str.startswith` on char lists.) -/
def listStarts : List Char → List Char → Bool
  | [], _ => true
  | _ :: _, [] => false
  | p :: ps, c :: cs => p = c && listStarts ps cs

/-- Does `sub` occur anywhere inside `cs`? (Python `in` for strings.) -/
def listHas : List Char → List Char → Bool
  | _, [] => false
  | sub, cs@(_ :: tl) => listStarts sub cs || listHas sub tl

/-- `listHas` with a nonempty needle needs the simp normal form below. -/
theorem listHas_cons (sub : List Char) (c : Char) (tl : List Char) :
    listHas sub (c :: tl) = (listStarts sub (c :: tl) || listHas sub tl) := by
  cases sub <;> rfl

/-- String-level containment test, Python's `sub in s`. -/
def strHas (s sub : String) : Bool := listHas sub.data s.data

/-- String-level prefix test, Python's `s.startswith(sub)`. -/
def strStarts (s sub : String) : Bool := listStarts sub.data s.data

/-- The whitespace characters of Python's `str.strip` / regex `\s` (ASCII range). -/
def pyWs (c : Char) : Bool :=
  c = ' ' || c = '\t' || c = '\n' || c = '\r' || c = '\x0b' || c = '\x0c'

/-- Python `str.strip()` on char lists: drop whitespace from both ends. -/
def listStrip (cs : List Char) : List Char :=
  ((cs.dropWhile pyWs).reverse.dropWhile pyWs).reverse

/-- Python `str.strip()`. -/
def pyStrip (s : String) : String := ⟨listStrip s.data⟩

/-- Python `str.lower()` (ASCII model; `Char.toLower` lowers exactly `A`–`Z`). -/
def lowerStr (s : String) : String := ⟨s.data.map Char.toLower⟩

/-- Split off the part of `cs` before the first occurrence of `sep`
(together with the part after it), or `none` when `sep` does not occur.
This is the single step from which Python's `str.split(sep)` is built. -/
def splitFirst (sep : List Char) : List Char → Option (List Char × List Char)
  | [] => if listStarts sep [] then some ([], []) else none
  | c :: cs =>
    if listStarts sep (c :: cs) then some ([], (c :: cs).drop sep.length)
    else match splitFirst sep cs with
      | none => none
      | some (a, b) => some (c :: a, b)

/-- Python `str.split(sep)` for a nonempty separator, via `splitFirst`;
the fuel is an upper bound on the number of pieces. -/
def splitGo (sep : List Char) : Nat → List Char → List (List Char)
  | 0, cs => [cs]
  | fuel + 1, cs =>
    match splitFirst sep cs with
    | none => [cs]
    | some (a, b) => a :: splitGo sep fuel b

/-- Python `str.split(sep)` (nonempty `sep`). -/
def pySplit (s sep : String) : List String :=
  (splitGo sep.data (s.data.length + 1) s.data).map fun cs => ⟨cs⟩

/-- Python `str.replace(old, new)` for a nonempty `old`: replace each
non-overlapping occurrence, scanning left to right. -/
def replaceGo (old new : List Char) : Nat → List Char → List Char
  | 0, cs => cs
  | fuel + 1, cs =>
    match splitFirst old cs with
    | none => cs
    | some (a, b) => a ++ new ++ replaceGo old new fuel b

/-- Python `str.replace(old, new)` (nonempty `old`). -/
def pyReplace (s old new : String) : String :=
  ⟨replaceGo old.data new.data (s.data.length + 1) s.data⟩

/-! ## A model of Python's `json` module

`Json` is the parse result; string and number atoms keep their raw
source text (numbers exactly as written, string contents still in
escaped form), which is enough because every theorem below compares one
parse result against another parse result. -/

/-- A parsed JSON value (string/number atoms kept as raw source text). -/
inductive Json where
  | null
  | bool (b : Bool)
  | num (raw : String)
  | str (raw : String)
  | arr (elems : List Json)
  | obj (members : List (String × Json))

/-- The whitespace characters skipped by Python's `json` decoder
(exactly space, tab, newline, carriage return). -/
def jsonWs (c : Char) : Bool := c = ' ' || c = '\t' || c = '\n' || c = '\r'

/-- Digit test for the JSON number grammar. -/
def jsonDigit (c : Char) : Bool := '0' ≤ c && c ≤ '9'

/-- Hexadecimal digit test (for `\uXXXX` escapes). -/
def hexDigit (c : Char) : Bool :=
  jsonDigit c || ('a' ≤ c && c ≤ 'f') || ('A' ≤ c && c ≤ 'F')

/-- The single characters allowed directly after a backslash in a JSON
string (besides `u`). -/
def escChar (c : Char) : Bool :=
  c = '"' || c = '\\' || c = '/' || c = 'b' || c = 'f' || c = 'n' || c = 'r' || c = 't'

/-- Parse the contents of a JSON string after the opening quote, up to and
including the closing quote; returns the raw (still escaped) contents and
the remaining input.  Python's strict decoder rejects raw control
characters and invalid escapes, which this mirrors. -/
def strTail : Nat → List Char → Option (List Char × List Char)
  | 0, _ => none
  | _, [] => none
  | fuel + 1, c :: cs =>
    if c = '"' then some ([], cs)
    else if c = '\\' then
      match cs with
      | [] => none
      | e :: cs' =>
        if escChar e then
          match strTail fuel cs' with
          | none => none
          | some (raw, rest) => some (c :: e :: raw, rest)
        else if e = 'u' then
          match cs' with
          | h1 :: h2 :: h3 :: h4 :: cs'' =>
            if hexDigit h1 && hexDigit h2 && hexDigit h3 && hexDigit h4 then
              match strTail fuel cs'' with
              | none => none
              | some (raw, rest) => some (c :: e :: h1 :: h2 :: h3 :: h4 :: raw, rest)
            else none
          | _ => none
        else none
    else if c.toNat < 32 then none
    else
      match strTail fuel cs with
      | none => none
      | some (raw, rest) => some (c :: raw, rest)

/-- Maximal run of digits at the front of the input. -/
def takeDigits : List Char → List Char × List Char
  | [] => ([], [])
  | c :: cs =>
    if jsonDigit c then
      let (ds, rest) := takeDigits cs
      (c :: ds, rest)
    else ([], c :: cs)

/-- The integer part of a JSON number after the optional sign:
`0`, or a nonzero digit followed by more digits. -/
def intTail : List Char → Option (List Char × List Char)
  | [] => none
  | c :: cs =>
    if c = '0' then some ([c], cs)
    else if jsonDigit c then
      let (ds, rest) := takeDigits cs
      some (c :: ds, rest)
    else none

/-- Optional fraction part `.digits` (maximal munch, as in the regex used
by Python's decoder). -/
def fracPart (cs : List Char) : List Char × List Char :=
  match cs with
  | '.' :: cs' =>
    match takeDigits cs' with
    | ([], _) => ([], cs)
    | (ds, rest) => ('.' :: ds, rest)
  | _ => ([], cs)

/-- Optional exponent part `[eE][+-]?digits` (maximal munch). -/
def expPart (cs : List Char) : List Char × List Char :=
  match cs with
  | c :: cs' =>
    if c = 'e' || c = 'E' then
      match cs' with
      | s :: cs'' =>
        if s = '+' || s = '-' then
          match takeDigits cs'' with
          | ([], _) => ([], cs)
          | (ds, rest) => (c :: s :: ds, rest)
        else
          match takeDigits cs' with
          | ([], _) => ([], cs)
          | (ds, rest) => (c :: ds, rest)
      | [] => ([], cs)
    else ([], cs)
  | [] => ([], cs)

/-- A JSON number after the optional leading minus sign. -/
def numTail (cs : List Char) : Option (List Char × List Char) :=
  match intTail cs with
  | none => none
  | some (ip, rest) =>
    let (fp, rest') := fracPart rest
    let (ep, rest'') := expPart rest'
    some (ip ++ fp ++ ep, rest'')

mutual

/-- Recursive-descent parse of one JSON value starting at the head of the
input (leading whitespace already skipped by the caller), following the
grammar recognised by Python's `json.loads` — including the non-standard
`NaN` / `Infinity` / `-Infinity` constants it accepts by default.
Returns the value and the unconsumed remainder. -/
def parseValue : Nat → List Char → Option (Json × List Char)
  | 0, _ => none
  | fuel + 1, cs =>
    match cs with
    | [] => none
    | c :: cs' =>
      if c = '{' then
        let t := cs'.dropWhile jsonWs
        match t with
        | '}' :: r => some (.obj [], r)
        | _ =>
          match parseMembers fuel t with
          | none => none
          | some (ms, r) => some (.obj ms, r)
      else if c = '[' then
        let t := cs'.dropWhile jsonWs
        match t with
        | ']' :: r => some (.arr [], r)
        | _ =>
          match parseElems fuel t with
          | none => none
          | some (vs, r) => some (.arr vs, r)
      else if c = '"' then
        match strTail (cs'.length + 1) cs' with
        | none => none
        | some (raw, r) => some (.str ⟨raw⟩, r)
      else if c = 't' then
        if listStarts ['r', 'u', 'e'] cs' then some (.bool true, cs'.drop 3) else none
      else if c = 'f' then
        if listStarts ['a', 'l', 's', 'e'] cs' then some (.bool false, cs'.drop 4) else none
      else if c = 'n' then
        if listStarts ['u', 'l', 'l'] cs' then some (.null, cs'.drop 3) else none
      else if c = 'N' then
        if listStarts ['a', 'N'] cs' then some (.num "NaN", cs'.drop 2) else none
      else if c = 'I' then
        if listStarts ['n', 'f', 'i', 'n', 'i', 't', 'y'] cs' then
          some (.num "Infinity", cs'.drop 7)
        else none
      else if c = '-' then
        if listStarts ['I', 'n', 'f', 'i', 'n', 'i', 't', 'y'] cs' then
          some (.num "-Infinity", cs'.drop 8)
        else
          match numTail cs' with
          | none => none
          | some (ds, r) => some (.num ⟨'-' :: ds⟩, r)
      else if jsonDigit c then
        match numTail (c :: cs') with
        | none => none
        | some (ds, r) => some (.num ⟨ds⟩, r)
      else none

/-- Parse the members of a JSON object, the input starting at the opening
quote of the first key; consumes up to and including the closing `}`. -/
def parseMembers : Nat → List Char → Option (List (String × Json) × List Char)
  | 0, _ => none
  | fuel + 1, cs =>
    match cs with
    | '"' :: cs' =>
      match strTail (cs'.length + 1) cs' with
      | none => none
      | some (kraw, r1) =>
        match r1.dropWhile jsonWs with
        | ':' :: r2 =>
          match parseValue fuel (r2.dropWhile jsonWs) with
          | none => none
          | some (v, r3) =>
            match r3.dropWhile jsonWs with
            | ',' :: r4 =>
              match parseMembers fuel (r4.dropWhile jsonWs) with
              | none => none
              | some (ms, r5) => some ((⟨kraw⟩, v) :: ms, r5)
            | '}' :: r4 => some ([(⟨kraw⟩, v)], r4)
            | _ => none
        | _ => none
    | _ => none

/-- Parse the elements of a JSON array, the input starting at the first
element; consumes up to and including the closing `]`. -/
def parseElems : Nat → List Char → Option (List Json × List Char)
  | 0, _ => none
  | fuel + 1, cs =>
    match parseValue fuel cs with
    | none => none
    | some (v, r1) =>
      match r1.dropWhile jsonWs with
      | ',' :: r2 =>
        match parseElems fuel (r2.dropWhile jsonWs) with
        | none => none
        | some (vs, r3) => some (v :: vs, r3)
      | ']' :: r2 => some ([v], r2)
      | _ => none

end

/-- Python's `json.loads`: skip leading whitespace, parse one value,
require nothing but whitespace after it (else the decoder raises
`Extra data`).  The fuel bounds the recursion depth generously: every
two nested parse calls consume at least one character. -/
def json_loads (s : String) : Except String Json :=
  let cs := s.data.dropWhile jsonWs
  match parseValue (2 * s.data.length + 2) cs with
  | none => .error "Expecting value"
  | some (v, rest) =>
    if (rest.dropWhile jsonWs).isEmpty then .ok v else .error "Extra data"

/-! ## `GeminiClient._repair_json` (gemini_client.py lines 286-306)

Each of the six `re.sub` calls is modelled by a hand-rolled matcher for
its (backtracking-free) pattern plus a generic left-to-right
scan-and-replace driver, exactly re.sub's traversal: at each position
try to match; on a match emit the replacement and resume after the
matched span, otherwise emit the character and move one position on. -/

/-- First character of a bare identifier, `[a-zA-Z_]`. -/
def identStart (c : Char) : Bool :=
  ('a' ≤ c && c ≤ 'z') || ('A' ≤ c && c ≤ 'Z') || c = '_'

/-- Later character of a bare identifier, `[a-zA-Z0-9_]`. -/
def identChar (c : Char) : Bool := identStart c || jsonDigit c

/-- Generic `re.sub` driver: `m cs` returns the replacement text and the
input remaining after the match, when the pattern matches at the head. -/
def subAll (m : List Char → Option (List Char × List Char)) : Nat → List Char → List Char
  | 0, cs => cs
  | _ + 1, [] => []
  | fuel + 1, c :: tl =>
    match m (c :: tl) with
    | some (repl, rest) => repl ++ subAll m fuel rest
    | none => c :: subAll m fuel tl

/-- Matcher for `([{,])\s*([a-zA-Z_][a-zA-Z0-9_]*)\s*:` with replacement
`\1"\2":` (quote bare identifier keys). -/
def matchBareKey : List Char → Option (List Char × List Char)
  | [] => none
  | c :: rest =>
    if c = '{' || c = ',' then
      let t1 := rest.dropWhile pyWs
      match t1 with
      | i :: _ =>
        if identStart i then
          let ids := t1.takeWhile identChar
          let t2 := (t1.dropWhile identChar).dropWhile pyWs
          match t2 with
          | ':' :: r => some (c :: '"' :: (ids ++ ['"', ':']), r)
          | _ => none
        else none
      | [] => none
    else none

/-- Matcher for `,\s*([}\]])` with replacement `\1` (drop trailing commas). -/
def matchTrailComma : List Char → Option (List Char × List Char)
  | [] => none
  | c :: rest =>
    if c = ',' then
      match rest.dropWhile pyWs with
      | b :: r => if b = '}' || b = ']' then some ([b], r) else none
      | [] => none
    else none

/-- Matcher for `(cls)\s*\n\s*(tgt)` with replacement `\1,\n(tgt)`: the
three missing-comma repairs share this shape, differing only in the
character class `cls` before the newline and the target `tgt` after it. -/
def matchMissingComma (cls : List Char) (tgt : Char) : List Char → Option (List Char × List Char)
  | [] => none
  | c :: rest =>
    if cls.any (· = c) then
      let ws := rest.takeWhile pyWs
      let r2 := rest.dropWhile pyWs
      if ws.any (· = '\n') then
        match r2 with
        | b :: r => if b = tgt then some ([c, ',', '\n', tgt], r) else none
        | [] => none
      else none
    else none

/-- `GeminiClient._repair_json`: the six textual repairs in source
order; the last one, `"\s*\n\s*"` to `",\n"`, is the missing-comma
shape with class `"` and target `"`. -/
def repairJson (s : String) : String :=
  let t1 := subAll matchBareKey s.data.length s.data
  let t2 := subAll matchTrailComma t1.length t1
  let t3 := subAll (matchMissingComma ['}', ']', '"'] '"') t2.length t2
  let t4 := subAll (matchMissingComma ['}', ']'] '{') t3.length t3
  let t5 := subAll (matchMissingComma ['}', ']'] '[') t4.length t4
  let t6 := subAll (matchMissingComma ['"'] '"') t5.length t5
  ⟨t6⟩

/-! ## Balanced-brace extraction and `GeminiClient._parse_json`
(gemini_client.py lines 205-284) -/

/-- State of the balanced-brace scan: the running brace count and the
in-string / escape-next flags. -/
structure SState where
  brace : Int
  inStr : Bool
  esc : Bool
deriving DecidableEq

/-- One iteration of the extraction loop in `_parse_json`, mirroring the
branch order of the source; the boolean reports the `break` (brace count
returned to zero at a closing brace). -/
def scanStep (st : SState) (c : Char) : SState × Bool :=
  if st.esc then ({ st with esc := false }, false)
  else if c = '\\' && st.inStr then ({ st with esc := true }, false)
  else if c = '"' && !st.esc then ({ st with inStr := !st.inStr }, false)
  else if st.inStr then (st, false)
  else if c = '{' then ({ st with brace := st.brace + 1 }, false)
  else if c = '}' then ({ st with brace := st.brace - 1 }, st.brace - 1 = 0)
  else (st, false)

/-- The extraction loop: returns `end_idx` (`i + 1` at the first break,
`0` when the loop never breaks, exactly as the source initialises it). -/
def scanGo : List Char → Nat → SState → Nat
  | [], _, _ => 0
  | c :: cs, i, st =>
    match scanStep st c with
    | (st', brk) => if brk then i + 1 else scanGo cs (i + 1) st'

/-- `end_idx` computed by the balanced-brace extraction in `_parse_json`. -/
def findEnd (cs : List Char) : Nat := scanGo cs 0 ⟨0, false, false⟩

/-- The markdown-fence stripping stage of `_parse_json` (lines
218-227): take the content between the first ```json fence pair, else
between the first generic ``` fence pair, else leave the text alone. -/
def fenceStrip (text0 : String) : String :=
  if strHas text0 "```json" then
    let parts := pySplit text0 "```json"
    if parts.length > 1 then
      pyStrip ((pySplit (parts.getD 1 "") "```").getD 0 "")
    else text0
  else if strHas text0 "```" then
    let parts := pySplit text0 "```"
    if parts.length > 1 then
      pyStrip ((pySplit (parts.getD 1 "") "```").getD 0 "")
    else text0
  else text0

/-- The anchoring stage of `_parse_json` (lines 229-235): if the text
does not start with `\x7b`, drop everything before the first `\x7b`, or
fail with a preview of the text when there is none. -/
def anchorObj (text1 : String) : Except String String :=
  if strStarts text1 "\x7b" then .ok text1
  else
    match text1.data.findIdx? (fun c => c == '{') with
    | some i => .ok ⟨text1.data.drop i⟩
    | none => .error ("Could not find JSON in response: " ++ (⟨text1.data.take 200⟩ : String))

/-- The recovery chain of `_parse_json` (lines 237-284): direct parse,
repair-then-parse, balanced-brace extraction, then a final parse /
repair-parse whose error propagates. -/
def recoverJson (text : String) : Except String Json :=
  match json_loads text with
  | .ok v => .ok v
  | .error _ =>
    match json_loads (repairJson text) with
    | .ok v => .ok v
    | .error _ =>
      let e := findEnd text.data
      let text2 : String := if e > 0 then ⟨text.data.take e⟩ else text
      match json_loads text2 with
      | .ok v => .ok v
      | .error _ => json_loads (repairJson text2)

/-- `GeminiClient._parse_json`: markdown-fence stripping, anchoring to
the first `\x7b`, then the parse/repair/extraction recovery chain. -/
def parse_json (text0 : String) : Except String Json :=
  match anchorObj (fenceStrip text0) with
  | .error e => .error e
  | .ok text => recoverJson text

/-! ## The `CompanyContext` data model (models.py lines 20-108)

Pydantic `Optional[str]` fields become `Option String` (they accept and
store `None`); plain `str` / `List[str]` fields become `String` /
`List String`.  Literal defaults are taken field by field from the
source. -/

structure LanguageStyle where
  formality : Option String := some "professional"
  complexity : Option String := some "moderate"
  sentence_length : Option String := some "mixed"
  perspective : Option String := some "expert-to-learner"
deriving DecidableEq

structure VoicePersona where
  icp_profile : Option String := some ""
  voice_style : Option String := some ""
  language_style : LanguageStyle := {}
  sentence_patterns : List String := []
  vocabulary_level : Option String := some ""
  authority_signals : List String := []
  do_list : List String := []
  dont_list : List String := []
  example_phrases : List String := []
  opening_styles : List String := []
deriving DecidableEq

structure AuthorInfo where
  name : String
  title : String := ""
  bio : String := ""
  image_url : String := ""
  linkedin_url : String := ""
  twitter_url : String := ""
deriving DecidableEq

structure BlogImageExample where
  url : String
  description : String := ""
  image_type : String := "hero"
deriving DecidableEq

structure VisualIdentity where
  brand_colors : List String := []
  secondary_colors : List String := []
  visual_style : Option String := some ""
  design_elements : List String := []
  typography_style : Option String := some ""
  image_style_prompt : Option String := some ""
  blog_image_examples : List BlogImageExample := []
  mood : Option String := some ""
  avoid_in_images : List String := []
deriving DecidableEq

structure CompanyContext where
  company_name : String := ""
  company_url : String := ""
  industry : String := ""
  description : String := ""
  products : List String := []
  target_audience : String := ""
  competitors : List String := []
  competitor_categories : List String := []
  primary_region : String := ""
  primary_country : String := "US"
  primary_language : String := "en"
  tone : String := "professional"
  pain_points : List String := []
  value_propositions : List String := []
  use_cases : List String := []
  content_themes : List String := []
  voice_persona : VoicePersona := {}
  visual_identity : VisualIdentity := {}
  authors : List AuthorInfo := []
deriving DecidableEq

/-! ## Dynamic (Python) values and `CompanyContext.from_dict`
(models.py lines 110-158)

`PyVal` models the JSON-like dynamic values that reach `from_dict`.
Pydantic v2 validation in default (lax) mode rejects non-string input
for `str` fields (no `int → str` coercion), accepts `None` only for
`Optional` fields, validates nested dicts recursively, and ignores
unknown keys; the `parse*` helpers below encode exactly that for the
field types occurring in this model. -/

inductive PyVal where
  | vnone
  | vbool (b : Bool)
  | vint (n : Int)
  | vstr (s : String)
  | vlist (xs : List PyVal)
  | vdict (kvs : List (String × PyVal))

/-- Dictionary lookup (`dict.get`); keys of a Python dict are unique. -/
def pyLookup : List (String × PyVal) → String → Option PyVal
  | [], _ => none
  | (k', v) :: tl, k => if k' = k then some v else pyLookup tl k

/-- Python truthiness for the modelled values. -/
def pyTruthy : PyVal → Bool
  | .vnone => false
  | .vbool b => b
  | .vint n => n ≠ 0
  | .vstr s => s ≠ ""
  | .vlist xs => !xs.isEmpty
  | .vdict kvs => !kvs.isEmpty

/-- Validate a value against a `str` field (Pydantic v2 lax mode). -/
def parseStrVal : PyVal → Except String String
  | .vstr s => .ok s
  | _ => .error "string_type"

/-- Validate a value against an `Optional[str]` field. -/
def parseOptStrVal : PyVal → Except String (Option String)
  | .vnone => .ok none
  | .vstr s => .ok (some s)
  | _ => .error "string_type"

/-- Validate a value against a `List[str]` field. -/
def parseStrList : PyVal → Except String (List String)
  | .vlist xs => xs.mapM parseStrVal
  | _ => .error "list_type"

/-- A `str` field with a default, read from a dict. -/
def fieldStr (d : List (String × PyVal)) (key dflt : String) : Except String String :=
  match pyLookup d key with
  | none => .ok dflt
  | some v => parseStrVal v

/-- An `Optional[str]` field with a default, read from a dict. -/
def fieldOptStr (d : List (String × PyVal)) (key : String) (dflt : Option String) :
    Except String (Option String) :=
  match pyLookup d key with
  | none => .ok dflt
  | some v => parseOptStrVal v

/-- A `List[str]` field (default empty), read from a dict. -/
def fieldStrList (d : List (String × PyVal)) (key : String) : Except String (List String) :=
  match pyLookup d key with
  | none => .ok []
  | some v => parseStrList v

/-- Validation of a `LanguageStyle` from a dict (unknown keys ignored). -/
def LanguageStyle.fromPy (d : List (String × PyVal)) : Except String LanguageStyle := do
  let formality ← fieldOptStr d "formality" (some "professional")
  let complexity ← fieldOptStr d "complexity" (some "moderate")
  let sentence_length ← fieldOptStr d "sentence_length" (some "mixed")
  let perspective ← fieldOptStr d "perspective" (some "expert-to-learner")
  pure { formality, complexity, sentence_length, perspective }

/-- Building a `VoicePersona` from `voice_data` as `from_dict` does: a
nonempty dict under `language_style` is validated into a `LanguageStyle`
(extra keys ignored); an absent or empty-dict value yields the default;
any other value fails `VoicePersona` validation. -/
def VoicePersona.fromPy (d : List (String × PyVal)) : Except String VoicePersona := do
  let language_style ←
    match pyLookup d "language_style" with
    | none => .ok ({} : LanguageStyle)
    | some (.vdict []) => .ok ({} : LanguageStyle)
    | some (.vdict kvs) => LanguageStyle.fromPy kvs
    | some _ => .error "language_style"
  let icp_profile ← fieldOptStr d "icp_profile" (some "")
  let voice_style ← fieldOptStr d "voice_style" (some "")
  let sentence_patterns ← fieldStrList d "sentence_patterns"
  let vocabulary_level ← fieldOptStr d "vocabulary_level" (some "")
  let authority_signals ← fieldStrList d "authority_signals"
  let do_list ← fieldStrList d "do_list"
  let dont_list ← fieldStrList d "dont_list"
  let example_phrases ← fieldStrList d "example_phrases"
  let opening_styles ← fieldStrList d "opening_styles"
  pure { icp_profile, voice_style, language_style, sentence_patterns, vocabulary_level,
         authority_signals, do_list, dont_list, example_phrases, opening_styles }

/-- Validation of a `BlogImageExample` from a dict (`url` is required). -/
def BlogImageExample.fromPy (d : List (String × PyVal)) : Except String BlogImageExample := do
  let url ←
    match pyLookup d "url" with
    | none => .error "missing url"
    | some v => parseStrVal v
  let description ← fieldStr d "description" ""
  let image_type ← fieldStr d "image_type" "hero"
  pure { url, description, image_type }

/-- The `blog_image_examples` preprocessing of `from_dict`: a list is
filtered item by item (non-dict items are dropped, dict items that fail
`BlogImageExample` validation are skipped with a warning); a truthy
non-list iterable of non-dicts (a string or a dict, iterated over its
characters/keys) yields an empty list; every falsy or non-iterable
non-list value is left in place and then fails `VisualIdentity`
validation. -/
def parseBlogExamples : Option PyVal → Except String (List BlogImageExample)
  | none => .ok []
  | some (.vlist xs) =>
    .ok (xs.filterMap fun ex =>
      match ex with
      | .vdict e => (BlogImageExample.fromPy e).toOption
      | _ => none)
  | some (.vstr s) => if s = "" then .error "list_type" else .ok []
  | some (.vdict kvs) => if kvs.isEmpty then .error "list_type" else .ok []
  | some _ => .error "list_type"

/-- Building a `VisualIdentity` from `visual_data` as `from_dict` does. -/
def VisualIdentity.fromPy (d : List (String × PyVal)) : Except String VisualIdentity := do
  let blog_image_examples ← parseBlogExamples (pyLookup d "blog_image_examples")
  let brand_colors ← fieldStrList d "brand_colors"
  let secondary_colors ← fieldStrList d "secondary_colors"
  let visual_style ← fieldOptStr d "visual_style" (some "")
  let design_elements ← fieldStrList d "design_elements"
  let typography_style ← fieldOptStr d "typography_style" (some "")
  let image_style_prompt ← fieldOptStr d "image_style_prompt" (some "")
  let mood ← fieldOptStr d "mood" (some "")
  let avoid_in_images ← fieldStrList d "avoid_in_images"
  pure { brand_colors, secondary_colors, visual_style, design_elements, typography_style,
         image_style_prompt, blog_image_examples, mood, avoid_in_images }

/-- One string field of an author dict after `from_dict`'s cleaning step
(`None` values become empty strings). -/
def readAuthorField (d : List (String × PyVal)) (key : String)
    (dflt : Except String String) : Except String String :=
  match pyLookup d key with
  | none => dflt
  | some .vnone => .ok ""
  | some (.vstr s) => .ok s
  | some _ => .error "string_type"

/-- An `AuthorInfo` built from a dict after `from_dict`'s cleaning step;
validation errors propagate. -/
def AuthorInfo.fromPyCleaned (d : List (String × PyVal)) : Except String AuthorInfo := do
  let name ← readAuthorField d "name" (.error "missing name")
  let title ← readAuthorField d "title" (.ok "")
  let bio ← readAuthorField d "bio" (.ok "")
  let image_url ← readAuthorField d "image_url" (.ok "")
  let linkedin_url ← readAuthorField d "linkedin_url" (.ok "")
  let twitter_url ← readAuthorField d "twitter_url" (.ok "")
  pure { name, title, bio, image_url, linkedin_url, twitter_url }

/-- The author-list preprocessing of `from_dict`: keep a dict entry only
when its `name` is present and truthy (others are silently dropped, as
are non-dict entries); errors while validating a kept entry propagate. -/
def parseAuthors : List PyVal → Except String (List AuthorInfo)
  | [] => .ok []
  | x :: tl =>
    match x with
    | .vdict kvs =>
      if (pyLookup kvs "name").elim false pyTruthy then do
        let a ← AuthorInfo.fromPyCleaned kvs
        let rest ← parseAuthors tl
        pure (a :: rest)
      else parseAuthors tl
    | _ => parseAuthors tl

/-- The `voice_persona` handling of `from_dict`: an absent key or an
empty dict yields the default persona, a nonempty dict is validated,
anything else fails `CompanyContext` validation. -/
def parseVoicePersonaField (v : Option PyVal) : Except String VoicePersona :=
  match v with
  | none => .ok {}
  | some (.vdict []) => .ok {}
  | some (.vdict kvs) => VoicePersona.fromPy kvs
  | some _ => .error "voice_persona"

/-- The `visual_identity` handling of `from_dict`. -/
def parseVisualIdentityField (v : Option PyVal) : Except String VisualIdentity :=
  match v with
  | none => .ok {}
  | some (.vdict []) => .ok {}
  | some (.vdict kvs) => VisualIdentity.fromPy kvs
  | some _ => .error "visual_identity"

/-- The `authors` handling of `from_dict`: a list is filtered and
validated entry by entry, anything else fails validation. -/
def parseAuthorsField (v : Option PyVal) : Except String (List AuthorInfo) :=
  match v with
  | none => .ok []
  | some (.vlist xs) => parseAuthors xs
  | some _ => .error "authors"

/-- The field-by-field assembly of `CompanyContext.from_dict` for a
nonempty mapping: `voice_persona` / `visual_identity` / `authors` get
their special handling; every other known key is validated field by
field and unknown keys are ignored (the final `cls(**…)` comprehension
filters on `cls.model_fields`). -/
def CompanyContext.fromDictBody (d : List (String × PyVal)) : Except String CompanyContext := do
  let voice_persona ← parseVoicePersonaField (pyLookup d "voice_persona")
  let visual_identity ← parseVisualIdentityField (pyLookup d "visual_identity")
  let authors ← parseAuthorsField (pyLookup d "authors")
  let company_name ← fieldStr d "company_name" ""
  let company_url ← fieldStr d "company_url" ""
  let industry ← fieldStr d "industry" ""
  let description ← fieldStr d "description" ""
  let products ← fieldStrList d "products"
  let target_audience ← fieldStr d "target_audience" ""
  let competitors ← fieldStrList d "competitors"
  let competitor_categories ← fieldStrList d "competitor_categories"
  let primary_region ← fieldStr d "primary_region" ""
  let primary_country ← fieldStr d "primary_country" "US"
  let primary_language ← fieldStr d "primary_language" "en"
  let tone ← fieldStr d "tone" "professional"
  let pain_points ← fieldStrList d "pain_points"
  let value_propositions ← fieldStrList d "value_propositions"
  let use_cases ← fieldStrList d "use_cases"
  let content_themes ← fieldStrList d "content_themes"
  pure { company_name, company_url, industry, description, products, target_audience,
         competitors, competitor_categories, primary_region, primary_country,
         primary_language, tone, pain_points, value_propositions, use_cases,
         content_themes, voice_persona, visual_identity, authors }

/-- `CompanyContext.from_dict`: the `if not data` early return, then the
field-by-field assembly. -/
def CompanyContext.from_dict (d : List (String × PyVal)) : Except String CompanyContext :=
  if d.isEmpty then .ok {} else CompanyContext.fromDictBody d

/-! ## URL normalisation, `basic_company_detection`, `get_company_context`
(opencontext.py lines 127-129, 218-255, 262-302) -/

/-- The URL normalisation used by both `run_opencontext` (lines 127-129)
and `basic_company_detection` (lines 233-234): prefix `https://` unless
the string already starts with the four characters `http`. -/
def normalizeUrl (url : String) : String :=
  if strStarts url "http" then url else "https://" ++ url

/-- Valid URL scheme prefix for `urllib.parse.urlparse`: a letter
followed by letters, digits, `+`, `-` or `.`. -/
def isValidScheme : List Char → Bool
  | [] => false
  | c :: tl => c.isAlpha && tl.all (fun x => x.isAlphanum || x = '+' || x = '-' || x = '.')

/-- `urlsplit`'s input cleanup: strip leading C0 controls and spaces,
then remove every tab, carriage return and newline. -/
def urlPrep (url : String) : List Char :=
  (url.data.dropWhile (fun c => c.toNat ≤ 32)).filter
    (fun c => !(c = '\t' || c = '\r' || c = '\n'))

/-- `urlsplit`'s scheme handling: drop `scheme:` when the text before
the first colon is a valid scheme. -/
def schemeStrip (cs : List Char) : List Char :=
  match splitFirst [':'] cs with
  | some (pre, after) => if isValidScheme pre then after else cs
  | none => cs

/-- The network-location characters: after the leading `//`, up to the
next `/`, `?` or `#`. -/
def netlocChars (rest : List Char) : List Char :=
  (rest.drop 2).takeWhile (fun c => !(c = '/' || c = '?' || c = '#'))

/-- Full split of a character list on a single separator character
(Python `str.split(sep)` producing all pieces). -/
def splitOnChar (sep : Char) : List Char → List (List Char)
  | [] => [[]]
  | c :: tl =>
    match splitOnChar sep tl with
    | [] => [[]]
    | h :: t => if c = sep then [] :: h :: t else (c :: h) :: t

/-- Value of a decimal digit string. -/
def natOfDigits (ds : List Char) : Nat := ds.foldl (fun a c => 10 * a + (c.toNat - 48)) 0

/-- `ipaddress._parse_octet` as a validity test: nonempty, ASCII
digits only, at most 3 characters, no leading zero, at most 255. -/
def validOctet (s : List Char) : Bool :=
  !s.isEmpty && s.all jsonDigit && s.length ≤ 3 &&
    (decide (s = ['0']) || decide (s.head? ≠ some '0')) && natOfDigits s ≤ 255

/-- `ipaddress.IPv4Address` on a string as a validity test: no slash
and exactly four valid octets. -/
def validIPv4 (s : List Char) : Bool :=
  !(s.any (· = '/')) &&
    (let parts := splitOnChar '.' s
     decide (parts.length = 4) && parts.all validOctet)

/-- `ipaddress._parse_hextet` as a validity test: hex digits only and
at most 4 characters (the empty string passes, as in the source). -/
def validHextet (s : List Char) : Bool := s.all hexDigit && s.length ≤ 4

/-- `ipaddress._BaseV6._ip_int_from_string` as a validity test,
following the source's checks in order: at least 3 colon-separated
parts, optional embedded IPv4 tail (converted to two hextets), at most
9 parts, at most one interior empty part (`::`), a leading or trailing
single colon only as part of `::`, at least one part skipped by `::`
(resp. exactly 8 parts without one), and every counted part a valid
hextet. -/
def validIPv6Addr (s : List Char) : Bool :=
  if s.isEmpty then false
  else
    let parts0 := splitOnChar ':' s
    if parts0.length < 3 then false
    else
      let lastP := (parts0.getLast?).getD []
      let hasDot := lastP.any (· = '.')
      if hasDot && !validIPv4 lastP then false
      else
        let parts := if hasDot then parts0.dropLast ++ [['0'], ['0']] else parts0
        if parts.length > 9 then false
        else
          let interior := (parts.drop 1).dropLast
          match interior.findIdx? (fun p => p.isEmpty) with
          | some i =>
            if (interior.drop (i + 1)).any (fun p => p.isEmpty) then false
            else
              let skip := i + 1
              let lo0 := parts.length - skip - 1
              let headEmpty := ((parts.head?).getD ['x']).isEmpty
              let lastEmpty := ((parts.getLast?).getD ['x']).isEmpty
              if headEmpty && decide (skip ≠ 1) then false
              else if lastEmpty && decide (lo0 ≠ 1) then false
              else
                let hi := if headEmpty then skip - 1 else skip
                let lo := if lastEmpty then lo0 - 1 else lo0
                if hi + lo > 7 then false
                else parts.all validHextet
          | none =>
            decide (parts.length = 8) && !((parts.head?).getD ['x']).isEmpty &&
              !((parts.getLast?).getD ['x']).isEmpty && parts.all validHextet

/-- `ipaddress.IPv6Address` on a string as a validity test: no slash,
optional `%scope` (nonempty, no further `%`), and a valid address
part. -/
def scopedIPv6 (s : List Char) : Bool :=
  !(s.any (· = '/')) &&
    (match splitFirst ['%'] s with
     | none => validIPv6Addr s
     | some (addr, scope) =>
       !scope.isEmpty && !(scope.any (· = '%')) && validIPv6Addr addr)

/-- The IPvFuture shape `v[0-9a-fA-F]+\..+` checked by
`urllib.parse._check_bracketed_host` (`.` does not match a newline). -/
def isIpvFuture (host : List Char) : Bool :=
  match host with
  | 'v' :: tl =>
    !(tl.takeWhile hexDigit).isEmpty &&
      (match tl.dropWhile hexDigit with
       | '.' :: r => !r.isEmpty && r.all (· ≠ '\n')
       | _ => false)
  | _ => false

/-- Python `repr` of a string (ASCII model: quote selection, backslash
and quote escaping, `\n`/`\r`/`\t`, and `\xXX` for other control
characters; other characters are kept as they are). -/
def pyRepr (s : List Char) : List Char :=
  let q : Char := if s.any (· = '\'') && !(s.any (· = '"')) then '"' else '\''
  let hexd : Nat → Char := fun n => if n < 10 then Char.ofNat (48 + n) else Char.ofNat (87 + n)
  let esc : Char → List Char := fun c =>
    if c = '\\' then ['\\', '\\']
    else if c = q then ['\\', q]
    else if c = '\n' then ['\\', 'n']
    else if c = '\r' then ['\\', 'r']
    else if c = '\t' then ['\\', 't']
    else if c.toNat < 32 || c.toNat = 127 then
      ['\\', 'x', hexd (c.toNat / 16), hexd (c.toNat % 16)]
    else [c]
  q :: (s.flatMap esc ++ [q])

/-- `urllib.parse._check_bracketed_host`: an IPvFuture shape when the
host starts with `v`, otherwise `ipaddress.ip_address` must accept it
and an IPv4 address is rejected; each failure raises `ValueError` with
the source's message. -/
def checkBracketedHost (host : List Char) : Except String Unit :=
  if host.head? = some 'v' then
    if isIpvFuture host then .ok () else .error "IPvFuture address is invalid"
  else if validIPv4 host then .error "An IPv4 address cannot be in brackets"
  else if scopedIPv6 host then .ok ()
  else .error ((⟨pyRepr host⟩ : String) ++ " does not appear to be an IPv4 or IPv6 address")

/-- `urlparse(url).netloc` with `urlsplit`'s error behaviour: after
cleanup, scheme stripping and netloc extraction, a netloc with a `[`
but no `]` (or vice versa) raises `ValueError("Invalid IPv6 URL")`, and
a bracketed host (between the first `[` and the following `]`) must
pass `_check_bracketed_host`.  The errors are `ValueError` messages. -/
def netlocOf (url : String) : Except String String :=
  let rest := schemeStrip (urlPrep url)
  if listStarts ['/', '/'] rest then
    let netloc := netlocChars rest
    if (netloc.any (· = '[') && !netloc.any (· = ']')) ||
        (netloc.any (· = ']') && !netloc.any (· = '[')) then .error "Invalid IPv6 URL"
    else if netloc.any (· = '[') && netloc.any (· = ']') then
      match checkBracketedHost (((netloc.dropWhile (· ≠ '[')).drop 1).takeWhile (· ≠ ']')) with
      | .ok _ => .ok ⟨netloc⟩
      | .error e => .error e
    else .ok ⟨netloc⟩
  else .ok ""

/-- Python `str.title()` (ASCII model): the first letter of each run of
letters is uppercased, the rest lowercased. -/
def titleGo : Bool → List Char → List Char
  | _, [] => []
  | prevAlpha, c :: tl =>
    if c.isAlpha then (if prevAlpha then c.toLower else c.toUpper) :: titleGo true tl
    else c :: titleGo false tl

/-- Python `str.title()`. -/
def pyTitle (s : String) : String := ⟨titleGo false s.data⟩

/-- `basic_company_detection`: derive a company name from the URL's
domain with no network call; all fields other than the ones assigned in
the source keep their class defaults.  A `ValueError` raised by
`urlparse` propagates. -/
def basic_company_detection (url : String) : Except String CompanyContext :=
  let u := normalizeUrl url
  match netlocOf u with
  | .error e => .error e
  | .ok nl =>
    let domain := pyReplace nl "www." ""
    let company_name := pyTitle (pyReplace ((pySplit domain ".").getD 0 "") "-" " ")
    .ok
      { company_name := company_name
        company_url := u
        industry := ""
        description := ""
        products := []
        target_audience := ""
        competitors := []
        tone := "professional"
        pain_points := []
        value_propositions := []
        use_cases := []
        content_themes := [] }

/-- Python's `x or y` on string-or-`None` operands (empty strings are
falsy), as used to resolve the API key. -/
def pyOrStr (a b : Option String) : Option String :=
  if a.elim false (· ≠ "") then a else b

/-- `get_company_context`.  The two environment variables and the
outcome of the (network-performing) `run_opencontext` call are explicit
parameters; the returned boolean records whether the remote model path
produced the result.  A `ValueError` raised by the basic detection
propagates (the first fallback call is outside the `try`, the second
raises from the handler). -/
def get_company_context (api_key envGemini envGoogle : Option String)
    (fallback_on_error : Bool) (url : String)
    (runResult : Except String CompanyContext) :
    Except String (CompanyContext × Bool) :=
  let key := pyOrStr (pyOrStr api_key envGemini) envGoogle
  if !(key.elim false (· ≠ "")) then
    if fallback_on_error then (basic_company_detection url).map (fun c => (c, false))
    else .error "No Gemini API key available"
  else
    match runResult with
    | .ok c => .ok (c, true)
    | .error e =>
      if fallback_on_error then (basic_company_detection url).map (fun c => (c, false))
      else .error e

/-! ## `generate_slug` (models.py lines 161-192) -/

/-- The characters kept by `re.sub(r'[^a-z0-9\s-]', '', …)`. -/
def slugKeep (c : Char) : Bool :=
  ('a' ≤ c && c ≤ 'z') || jsonDigit c || pyWs c || c = '-'

/-- Whitespace or underscore, the class of `[\s_]+`. -/
def wsUnder (c : Char) : Bool := pyWs c || c = '_'

/-- `dropWhile` never lengthens a list (termination measure for `subRuns`). -/
theorem dropWhile_len_le (p : Char → Bool) : ∀ l : List Char, (l.dropWhile p).length ≤ l.length
  | [] => Nat.le_refl _
  | c :: tl => by
    by_cases h : p c
    · simpa [List.dropWhile, h] using Nat.le_succ_of_le (dropWhile_len_le p tl)
    · simp [List.dropWhile, h]

/-- `re.sub` of a one-character-class `+` pattern by a single character:
each maximal run of `p`-characters becomes one `r`. -/
def subRuns (p : Char → Bool) (r : Char) : List Char → List Char
  | [] => []
  | c :: tl =>
    if p c then r :: subRuns p r (tl.dropWhile p) else c :: subRuns p r tl
termination_by cs => cs.length
decreasing_by
  · simp only [List.length_cons]
    exact Nat.lt_succ_of_le (dropWhile_len_le _ _)
  · simp

/-- Python `str.strip('-')`. -/
def stripHyphens (cs : List Char) : List Char :=
  ((cs.dropWhile (· = '-')).reverse.dropWhile (· = '-')).reverse

/-- Python `str.rfind(c)`: index of the last occurrence, `-1` if none. -/
def pyRFind : List Char → Char → Int
  | [], _ => -1
  | x :: tl, c =>
    let r := pyRFind tl c
    if r ≥ 0 then r + 1 else if x = c then 0 else -1

/-- The four cleanup passes of `generate_slug` before the emptiness
check: lowercase and strip, remove special characters, turn
whitespace/underscore runs into hyphens, collapse hyphen runs, strip
hyphens from the ends. -/
def slugCore (keyword : String) : List Char :=
  stripHyphens (subRuns (· = '-') '-'
    (subRuns wsUnder '-' ((listStrip (lowerStr keyword).data).filter slugKeep)))

/-- `generate_slug`: the cleanup passes, a fallback to `"article"` when
the keyword is empty or reduces to nothing, and truncation at a word
boundary when longer than `max_length`. -/
def generate_slug (keyword : String) (max_length : Nat) : String :=
  if keyword = "" then "article"
  else
    let slug := slugCore keyword
    if slug.isEmpty then "article"
    else if slug.length > max_length then
      let t := slug.take max_length
      let lastHyphen := pyRFind t '-'
      if lastHyphen > (max_length / 2 : Int) then ⟨t.take lastHyphen.toNat⟩ else ⟨t⟩
    else ⟨slug⟩

/-! ## The retry loop of `GeminiClient.generate`
(gemini_client.py lines 154-203)

The outcome of each remote attempt and the jitter drawn before each
retry are explicit parameters; the function returns the final outcome
together with the list of performed sleeps, in order. -/

/-- Outcome of one remote attempt: the response text, an
`asyncio.TimeoutError`, or an exception with its message. -/
inductive Attempt where
  | success (text : String)
  | timeout
  | failure (msg : String)

/-- The error `generate` can raise. -/
inductive GenErr where
  | timeoutErr
  | exc (msg : String)
deriving DecidableEq

/-- The transient-error vocabulary of the retryability check. -/
def transientVocab : List String :=
  ["rate limit", "429", "500", "502", "503", "504", "overloaded", "quota",
   "temporarily unavailable", "connection", "timeout", "resource exhausted"]

/-- `is_retryable`: some vocabulary item occurs in the lowercased message. -/
def isRetryable (msg : String) : Bool :=
  transientVocab.any (fun v => strHas (lowerStr msg) v)

/-- `min(base_delay * 2 ** attempt, max_delay)`. -/
def backoffDelay (baseDelay maxDelay : ℚ) (attempt : Nat) : ℚ :=
  min (baseDelay * 2 ^ attempt) maxDelay

/-- The `for attempt in range(max_retries + 1)` loop of `generate`.
`left + 1` is the number of attempts still available, `i` the current
0-based attempt number (so `i < maxRetries` iff `left > 0`, the
condition guarding the backoff sleep); reaching `left = 0` after the
last failure re-raises the last recorded error. -/
def genLoop (maxRetries : Nat) (baseDelay maxDelay : ℚ) (attempts : Nat → Attempt)
    (jitter : Nat → ℚ) (jsonOutput : Bool) :
    Nat → Nat → Option GenErr → List ℚ → Except GenErr (Json ⊕ String) × List ℚ
  | 0, _, lastErr, sleeps => (.error (lastErr.getD (.exc "NoneType")), sleeps)
  | left + 1, i, _, sleeps =>
    match attempts i with
    | .success text =>
      let t := pyStrip text
      if jsonOutput then
        match parse_json t with
        | .ok v => (.ok (.inl v), sleeps)
        | .error m =>
          -- an exception raised by `_parse_json` inside the `try` is
          -- classified by the generic `except` clause via its message
          if !isRetryable m || left = 0 then (.error (.exc m), sleeps)
          else
            genLoop maxRetries baseDelay maxDelay attempts jitter jsonOutput left (i + 1)
              (some (.exc m)) (sleeps ++ [backoffDelay baseDelay maxDelay i + jitter i])
      else (.ok (.inr t), sleeps)
    | .timeout =>
      if left = 0 then
        genLoop maxRetries baseDelay maxDelay attempts jitter jsonOutput 0 (i + 1)
          (some .timeoutErr) sleeps
      else
        genLoop maxRetries baseDelay maxDelay attempts jitter jsonOutput left (i + 1)
          (some .timeoutErr) (sleeps ++ [backoffDelay baseDelay maxDelay i + jitter i])
    | .failure msg =>
      if !isRetryable msg || left = 0 then (.error (.exc msg), sleeps)
      else
        genLoop maxRetries baseDelay maxDelay attempts jitter jsonOutput left (i + 1)
          (some (.exc msg)) (sleeps ++ [backoffDelay baseDelay maxDelay i + jitter i])

/-- `GeminiClient.generate`: run the retry loop from attempt 0 with the
full budget of `max_retries + 1` attempts and no sleeps performed. -/
def generate (maxRetries : Nat) (baseDelay maxDelay : ℚ) (attempts : Nat → Attempt)
    (jitter : Nat → ℚ) (jsonOutput : Bool) : Except GenErr (Json ⊕ String) × List ℚ :=
  genLoop maxRetries baseDelay maxDelay attempts jitter jsonOutput (maxRetries + 1) 0 none []

/-! # Theorems -/

/-! ## C2 / C3: the retry policy of `generate` -/

/-- A transient attempt outcome: a timeout, or an exception whose
message matches the transient vocabulary. -/
def transientFail (a : Attempt) : Prop :=
  a = .timeout ∨ ∃ m, a = .failure m ∧ isRetryable m = true

/-- The error `generate` records for a failing attempt. -/
def attemptErr : Attempt → GenErr
  | .timeout => .timeoutErr
  | .failure m => .exc m
  | .success _ => .exc ""

/-- The sleep performed after failing attempt `n`: the capped
exponential backoff delay plus the jitter drawn for that attempt. -/
def sleepAt (baseDelay maxDelay : ℚ) (jitter : Nat → ℚ) (n : Nat) : ℚ :=
  backoffDelay baseDelay maxDelay n + jitter n

/-- One-step unfolding of the loop at a timed-out attempt. -/
theorem genLoop_timeout (maxRetries : Nat) (b M : ℚ) (att : Nat → Attempt)
    (jit : Nat → ℚ) (jo : Bool) (l i : Nat) (last : Option GenErr) (sleeps : List ℚ)
    (h : att i = .timeout) :
    genLoop maxRetries b M att jit jo (l + 1) i last sleeps =
      if l = 0 then (.error .timeoutErr, sleeps)
      else genLoop maxRetries b M att jit jo l (i + 1) (some .timeoutErr)
        (sleeps ++ [backoffDelay b M i + jit i]) := by
  rw [genLoop.eq_2, h]
  by_cases hl : l = 0
  · subst hl
    simp [genLoop]
  · simp [hl]

/-- One-step unfolding of the loop at an attempt failing with message `m`. -/
theorem genLoop_failure (maxRetries : Nat) (b M : ℚ) (att : Nat → Attempt)
    (jit : Nat → ℚ) (jo : Bool) (l i : Nat) (last : Option GenErr) (sleeps : List ℚ)
    (m : String) (h : att i = .failure m) :
    genLoop maxRetries b M att jit jo (l + 1) i last sleeps =
      if (!isRetryable m || decide (l = 0)) = true then (.error (.exc m), sleeps)
      else genLoop maxRetries b M att jit jo l (i + 1) (some (.exc m))
        (sleeps ++ [backoffDelay b M i + jit i]) := by
  rw [genLoop.eq_2, h]

/-- One-step unfolding of the loop at a successful attempt in raw-text
mode. -/
theorem genLoop_succRaw (maxRetries : Nat) (b M : ℚ) (att : Nat → Attempt)
    (jit : Nat → ℚ) (l i : Nat) (last : Option GenErr) (sleeps : List ℚ)
    (t : String) (h : att i = .success t) :
    genLoop maxRetries b M att jit false (l + 1) i last sleeps =
      (.ok (.inr (pyStrip t)), sleeps) := by
  rw [genLoop.eq_2, h]
  simp

/-- When every remaining attempt fails transiently, the loop sleeps once
after each attempt but the last and then raises the last recorded
error. -/
theorem genLoop_all_transient (maxRetries : Nat) (b M : ℚ) (att : Nat → Attempt)
    (jit : Nat → ℚ) (jo : Bool) :
    ∀ n i (last : Option GenErr) (sleeps : List ℚ),
      i + n = maxRetries →
      (∀ j, j ≤ maxRetries → transientFail (att j)) →
      genLoop maxRetries b M att jit jo (n + 1) i last sleeps =
        (.error (attemptErr (att maxRetries)),
          sleeps ++ (List.range' i n).map (sleepAt b M jit)) := by
  intro n
  induction n with
  | zero =>
    intro i last sleeps hsum htr
    have hi : maxRetries = i := by omega
    subst hi
    rcases htr maxRetries (Nat.le_refl _) with h | ⟨m, hm, hr⟩
    · rw [genLoop_timeout _ _ _ _ _ _ _ _ _ _ h, if_pos rfl, h]
      simp [attemptErr]
    · rw [genLoop_failure _ _ _ _ _ _ _ _ _ _ _ hm, if_pos (by simp), hm]
      simp [attemptErr]
  | succ n ih =>
    intro i last sleeps hsum htr
    have hle : i ≤ maxRetries := by omega
    rcases htr i hle with h | ⟨m, hm, hr⟩
    · rw [genLoop_timeout _ _ _ _ _ _ _ _ _ _ h, if_neg (by omega : ¬(n + 1 = 0)),
        ih (i + 1) _ _ (by omega) htr]
      simp [List.range', sleepAt]
    · rw [genLoop_failure _ _ _ _ _ _ _ _ _ _ _ hm,
        if_neg (by simp [hr] : ¬((!isRetryable m || decide (n + 1 = 0)) = true)),
        ih (i + 1) _ _ (by omega) htr]
      simp [List.range', sleepAt]

/-- When the first `k` attempts fail transiently and attempt `k` fails
non-transiently, the loop raises that error at once, having slept once
after each of the `k` earlier attempts only. -/
theorem genLoop_nonretry (maxRetries : Nat) (b M : ℚ) (att : Nat → Attempt)
    (jit : Nat → ℚ) (jo : Bool) :
    ∀ k left i (last : Option GenErr) (sleeps : List ℚ) (m : String),
      (∀ j, j < k → transientFail (att (i + j))) →
      att (i + k) = .failure m → isRetryable m = false → k < left →
      genLoop maxRetries b M att jit jo left i last sleeps =
        (.error (.exc m), sleeps ++ (List.range' i k).map (sleepAt b M jit)) := by
  intro k
  induction k with
  | zero =>
    intro left i last sleeps m _ hf hr hlt
    match left, hlt with
    | l + 1, _ =>
      rw [Nat.add_zero] at hf
      rw [genLoop_failure _ _ _ _ _ _ _ _ _ _ _ hf, if_pos (by simp [hr])]
      simp
  | succ k ih =>
    intro left i last sleeps m htr hf hr hlt
    match left, hlt with
    | l + 1, hlt =>
      have hl : k < l := by omega
      have step : ∀ j, j < k → transientFail (att (i + 1 + j)) := by
        intro j hj
        have := htr (j + 1) (by omega)
        simpa [Nat.add_assoc, Nat.add_comm 1 j] using this
      have hf' : att (i + 1 + k) = .failure m := by
        have he : i + 1 + k = i + (k + 1) := by omega
        rw [he]; exact hf
      have hl0 : ¬ l = 0 := by omega
      rcases htr 0 (Nat.succ_pos _) with h | ⟨m', hm', hr'⟩
      · rw [Nat.add_zero] at h
        rw [genLoop_timeout _ _ _ _ _ _ _ _ _ _ h, if_neg hl0,
          ih l (i + 1) _ _ m step hf' hr hl]
        simp [List.range', sleepAt]
      · rw [Nat.add_zero] at hm'
        rw [genLoop_failure _ _ _ _ _ _ _ _ _ _ _ hm',
          if_neg (by simp [hr', hl0] : ¬((!isRetryable m' || decide (l = 0)) = true)),
          ih l (i + 1) _ _ m step hf' hr hl]
        simp [List.range', sleepAt]

/-- When the first `k` attempts fail transiently and attempt `k`
succeeds (raw-text mode), the loop returns the stripped text, having
slept once after each of the `k` earlier attempts. -/
theorem genLoop_success (maxRetries : Nat) (b M : ℚ) (att : Nat → Attempt)
    (jit : Nat → ℚ) :
    ∀ k left i (last : Option GenErr) (sleeps : List ℚ) (t : String),
      (∀ j, j < k → transientFail (att (i + j))) →
      att (i + k) = .success t → k < left →
      genLoop maxRetries b M att jit false left i last sleeps =
        (.ok (.inr (pyStrip t)), sleeps ++ (List.range' i k).map (sleepAt b M jit)) := by
  intro k
  induction k with
  | zero =>
    intro left i last sleeps t _ hs hlt
    match left, hlt with
    | l + 1, _ =>
      rw [Nat.add_zero] at hs
      rw [genLoop_succRaw _ _ _ _ _ _ _ _ _ _ hs]
      simp
  | succ k ih =>
    intro left i last sleeps t htr hs hlt
    match left, hlt with
    | l + 1, hlt =>
      have hl : k < l := by omega
      have step : ∀ j, j < k → transientFail (att (i + 1 + j)) := by
        intro j hj
        have := htr (j + 1) (by omega)
        simpa [Nat.add_assoc, Nat.add_comm 1 j] using this
      have hs' : att (i + 1 + k) = .success t := by
        have he : i + 1 + k = i + (k + 1) := by omega
        rw [he]; exact hs
      have hl0 : ¬ l = 0 := by omega
      rcases htr 0 (Nat.succ_pos _) with h | ⟨m', hm', hr'⟩
      · rw [Nat.add_zero] at h
        rw [genLoop_timeout _ _ _ _ _ _ _ _ _ _ h, if_neg hl0,
          ih l (i + 1) _ _ t step hs' hl]
        simp [List.range', sleepAt]
      · rw [Nat.add_zero] at hm'
        rw [genLoop_failure _ _ _ _ _ _ _ _ _ _ _ hm',
          if_neg (by simp [hr', hl0] : ¬((!isRetryable m' || decide (l = 0)) = true)),
          ih l (i + 1) _ _ t step hs' hl]
        simp [List.range', sleepAt]

/-- C2: `generate` raises exactly when the retry policy is exhausted or
inapplicable.  (a) If every one of the `maxRetries + 1` attempts fails
transiently (timeout, or message matching the transient vocabulary),
`generate` raises the error observed on the last attempt, having slept
after every attempt but the last.  (b) If the first `k` attempts fail
transiently and attempt `k` fails with a non-transient error, `generate`
raises that error immediately, with no further attempts and no further
sleeps — in particular zero sleeps when `k = 0`. -/
theorem generate_raises (maxRetries : Nat) (b M : ℚ) (att : Nat → Attempt)
    (jit : Nat → ℚ) (jo : Bool) :
    ((∀ i, i ≤ maxRetries → transientFail (att i)) →
      generate maxRetries b M att jit jo =
        (.error (attemptErr (att maxRetries)),
          (List.range maxRetries).map (sleepAt b M jit))) ∧
    (∀ k m, (∀ j, j < k → transientFail (att j)) →
      att k = .failure m → isRetryable m = false → k ≤ maxRetries →
      generate maxRetries b M att jit jo =
        (.error (.exc m), (List.range k).map (sleepAt b M jit)) ∧
      ((List.range k).map (sleepAt b M jit)).length = k) := by
  constructor
  · intro h
    rw [generate, genLoop_all_transient maxRetries b M att jit jo maxRetries 0 none []
      (by omega) h]
    simp [List.range_eq_range']
  · intro k m htr hf hr hk
    constructor
    · rw [generate, genLoop_nonretry maxRetries b M att jit jo k (maxRetries + 1) 0 none [] m
        (by simpa using htr) (by simpa using hf) hr (by omega)]
      simp [List.range_eq_range']
    · simp

/-- Witness for `generate_raises`: with `max_retries = 1`, two
consecutive `503` failures raise the last one after a single sleep, and
a first-attempt non-transient failure raises at once with zero sleeps. -/
theorem generate_raises_witness :
    generate 1 1 30 (fun _ => .failure "503 overloaded") (fun _ => 1/100) true =
      (.error (attemptErr (.failure "503 overloaded")),
        (List.range 1).map (sleepAt 1 30 fun _ => 1/100)) ∧
    generate 3 1 30 (fun _ => .failure "boom") (fun _ => 1/100) true =
      (.error (.exc "boom"), (List.range 0).map (sleepAt 1 30 fun _ => 1/100)) := by
  constructor
  · exact (generate_raises 1 1 30 (fun _ => .failure "503 overloaded") (fun _ => 1/100) true).1
      (fun i _ => Or.inr ⟨"503 overloaded", rfl, by decide⟩)
  · exact ((generate_raises 3 1 30 (fun _ => .failure "boom") (fun _ => 1/100) true).2 0 "boom"
      (fun j hj => absurd hj (Nat.not_lt_zero j)) rfl (by decide) (by omega)).1

/-- C3: backoff shape of a run with `maxRetries` transient failures
followed by success (with `base_delay = 1.0`, `max_delay = 30.0`).  The
run returns the successful result; the sleeps are exactly one per
failed attempt `n`, of duration `min(1 · 2^n, 30) + jitter n` — so no
sleep before the first attempt; each capped delay is at most
`max_delay`; while the doubled delay stays below the cap the slept
durations are non-decreasing (given that each jitter is between 0 and
10% of its delay); and a run whose first attempt succeeds performs no
sleep at all. -/
theorem generate_backoff (maxRetries : Nat) (att : Nat → Attempt) (jit : Nat → ℚ)
    (t : String)
    (hpre : ∀ j, j < maxRetries → transientFail (att j))
    (hsucc : att maxRetries = .success t)
    (hjit : ∀ n, 0 ≤ jit n ∧ jit n ≤ backoffDelay 1 30 n / 10) :
    generate maxRetries 1 30 att jit false =
      (.ok (.inr (pyStrip t)), (List.range maxRetries).map (sleepAt 1 30 jit)) ∧
    (∀ n, sleepAt 1 30 jit n = min ((1 : ℚ) * 2 ^ n) 30 + jit n) ∧
    (∀ n, backoffDelay 1 30 n ≤ 30) ∧
    (∀ n, (1 : ℚ) * 2 ^ (n + 1) ≤ 30 →
      sleepAt 1 30 jit n ≤ sleepAt 1 30 jit (n + 1)) ∧
    (∀ (att2 : Nat → Attempt) (u : String), att2 0 = .success u →
      generate maxRetries 1 30 att2 jit false = (.ok (.inr (pyStrip u)), [])) := by
  refine ⟨?_, fun n => rfl, fun n => min_le_right _ _, fun n hquot => ?_, ?_⟩
  · rw [generate, genLoop_success maxRetries 1 30 att jit maxRetries (maxRetries + 1) 0 none []
      t (by simpa using hpre) (by simpa using hsucc) (by omega)]
    simp [List.range_eq_range']
  · have hpow : (0 : ℚ) < 2 ^ n := by positivity
    have hn : (1 : ℚ) * 2 ^ n ≤ 30 := by
      calc (1 : ℚ) * 2 ^ n ≤ 1 * 2 ^ (n + 1) := by
            rw [one_mul, one_mul]
            exact pow_le_pow_right₀ (by norm_num) (Nat.le_succ n)
        _ ≤ 30 := hquot
    have hd : backoffDelay 1 30 n = 2 ^ n := by
      rw [backoffDelay, min_eq_left hn, one_mul]
    have hd' : backoffDelay 1 30 (n + 1) = 2 ^ (n + 1) := by
      rw [backoffDelay, min_eq_left hquot, one_mul]
    have h1 := (hjit n).2
    have h2 := (hjit (n + 1)).1
    rw [sleepAt, sleepAt, hd, hd']
    have : jit n ≤ 2 ^ n / 10 := by rwa [hd] at h1
    have hstep : (2 : ℚ) ^ n + 2 ^ n / 10 ≤ 2 ^ (n + 1) := by
      rw [pow_succ]
      nlinarith [hpow.le]
    calc (2 : ℚ) ^ n + jit n ≤ 2 ^ n + 2 ^ n / 10 := by linarith
      _ ≤ 2 ^ (n + 1) := hstep
      _ ≤ 2 ^ (n + 1) + jit (n + 1) := by linarith
  · intro att2 u h0
    rw [generate, genLoop_success maxRetries 1 30 att2 jit 0 (maxRetries + 1) 0 none [] u
      (fun j hj => absurd hj (Nat.not_lt_zero j)) (by simpa using h0) (by omega)]
    simp

/-- Witness for `generate_backoff`: one `429` failure then success, with
zero jitter. -/
theorem generate_backoff_witness :
    generate 1 1 30 (fun i => if i = 0 then .failure "429" else .success "ok")
        (fun _ => 0) false =
      (.ok (.inr (pyStrip "ok")), (List.range 1).map (sleepAt 1 30 fun _ => 0)) := by
  exact (generate_backoff 1 (fun i => if i = 0 then .failure "429" else .success "ok")
    (fun _ => 0) "ok"
    (fun j hj => by
      have hj0 : j = 0 := by omega
      subst hj0
      exact Or.inr ⟨"429", rfl, by decide⟩)
    rfl
    (fun n => ⟨le_refl 0, by
      have : (0 : ℚ) ≤ backoffDelay 1 30 n :=
        le_min (by positivity) (by norm_num)
      linarith⟩)).1

/-! ## C10: shape of `generate_slug` output -/

/-- One-step unfolding of `subRuns` at a non-matching character. -/
theorem subRuns_cons_not (p : Char → Bool) (r y : Char) (ys : List Char)
    (hy : p y = false) : subRuns p r (y :: ys) = y :: subRuns p r ys := by
  rw [subRuns]
  simp [hy]

/-- One-step unfolding of `subRuns` at a matching character. -/
theorem subRuns_cons_p (p : Char → Bool) (r y : Char) (ys : List Char)
    (hy : p y = true) : subRuns p r (y :: ys) = r :: subRuns p r (ys.dropWhile p) := by
  rw [subRuns]
  simp [hy]

/-- The head surviving a `dropWhile` does not satisfy the predicate. -/
theorem dropWhile_head_not (p : Char → Bool) :
    ∀ (l : List Char) (x : Char) (xs : List Char), l.dropWhile p = x :: xs → p x = false := by
  intro l
  induction l with
  | nil => intro x xs h; simp [List.dropWhile] at h
  | cons c tl ih =>
    intro x xs h
    by_cases hc : p c
    · rw [List.dropWhile_cons_of_pos hc] at h
      exact ih x xs h
    · rw [List.dropWhile_cons_of_neg hc] at h
      cases h
      exact Bool.eq_false_iff.mpr hc

/-- Every character of `subRuns p r l` is `r` or a non-`p` character of `l`. -/
theorem subRuns_mem (p : Char → Bool) (r : Char) :
    ∀ (l : List Char) (c : Char), c ∈ subRuns p r l → c = r ∨ (c ∈ l ∧ p c = false) := by
  intro l
  induction l using subRuns.induct p r with
  | case1 => intro c h; simp [subRuns] at h
  | case2 y ys hy ih =>
    intro c h
    rw [subRuns_cons_p p r y ys hy] at h
    rcases List.mem_cons.mp h with h | h
    · exact Or.inl h
    · rcases ih c h with h | ⟨h1, h2⟩
      · exact Or.inl h
      · exact Or.inr ⟨List.mem_cons_of_mem y ((List.dropWhile_suffix p).subset h1), h2⟩
  | case3 y ys hy ih =>
    intro c h
    rw [subRuns_cons_not p r y ys (Bool.eq_false_iff.mpr hy)] at h
    rcases List.mem_cons.mp h with h | h
    · exact Or.inr ⟨h ▸ List.mem_cons_self y ys, h ▸ Bool.eq_false_iff.mpr hy⟩
    · rcases ih c h with h | ⟨h1, h2⟩
      · exact Or.inl h
      · exact Or.inr ⟨List.mem_cons_of_mem y h1, h2⟩

/-- The head of `subRuns` applied to a `dropWhile p` remainder never
satisfies `p`. -/
theorem subRuns_head_not (p : Char → Bool) (r : Char) (l : List Char) (b : Char)
    (h : (subRuns p r (l.dropWhile p)).head? = some b) : p b = false := by
  cases hd : l.dropWhile p with
  | nil => rw [hd] at h; simp [subRuns] at h
  | cons x xs =>
    have hx : p x = false := dropWhile_head_not p l x xs hd
    rw [hd, subRuns_cons_not p r x xs hx] at h
    simp at h
    exact h ▸ hx

/-- In `subRuns p r l` no two adjacent characters both satisfy `p`. -/
theorem subRuns_chain (p : Char → Bool) (r : Char) :
    ∀ l, List.Chain' (fun a b => p a = false ∨ p b = false) (subRuns p r l) := by
  intro l
  induction l using subRuns.induct p r with
  | case1 => simp [subRuns]
  | case2 y ys hy ih =>
    rw [subRuns_cons_p p r y ys hy]
    rw [List.chain'_cons']
    exact ⟨fun b hb => Or.inr (subRuns_head_not p r ys b hb), ih⟩
  | case3 y ys hy ih =>
    rw [subRuns_cons_not p r y ys (Bool.eq_false_iff.mpr hy)]
    rw [List.chain'_cons']
    exact ⟨fun b _ => Or.inl (Bool.eq_false_iff.mpr hy), ih⟩

/-- `stripHyphens` only removes characters. -/
theorem stripHyphens_subset (l : List Char) : stripHyphens l ⊆ l := by
  intro c hc
  rw [stripHyphens] at hc
  rw [List.mem_reverse] at hc
  have h1 := (List.dropWhile_suffix (fun c => decide (c = '-'))).subset hc
  rw [List.mem_reverse] at h1
  exact (List.dropWhile_suffix _).subset h1

/-- The first character of a stripped list is not a hyphen. -/
theorem stripHyphens_head (l : List Char) (x : Char)
    (h : (stripHyphens l).head? = some x) : x ≠ '-' := by
  have hpre : stripHyphens l <+: l.dropWhile (fun c => decide (c = '-')) := by
    rw [stripHyphens]
    have hs := List.dropWhile_suffix (l := (l.dropWhile (fun c => decide (c = '-'))).reverse)
      (p := fun c => decide (c = '-'))
    rw [← List.reverse_prefix] at hs
    simpa using hs
  obtain ⟨t, ht⟩ := hpre
  cases hm : stripHyphens l with
  | nil => rw [hm] at h; simp at h
  | cons y ys =>
    rw [hm] at h ht
    have hyx : y = x := by simpa using h
    have hy := dropWhile_head_not (fun c => decide (c = '-')) l y (ys ++ t) (by
      rw [← ht]; simp)
    rw [← hyx]
    simpa using hy

/-- The last character of a stripped list is not a hyphen. -/
theorem stripHyphens_last (l : List Char) (x : Char)
    (h : (stripHyphens l).getLast? = some x) : x ≠ '-' := by
  rw [stripHyphens, List.getLast?_reverse] at h
  cases hd : (l.dropWhile (fun c => decide (c = '-'))).reverse.dropWhile
      (fun c => decide (c = '-')) with
  | nil => rw [hd] at h; simp at h
  | cons y ys =>
    rw [hd] at h
    have hyx : y = x := by simpa using h
    have hy := dropWhile_head_not (fun c => decide (c = '-'))
      (l.dropWhile (fun c => decide (c = '-'))).reverse y ys hd
    rw [← hyx]
    simpa using hy

/-- Stripping preserves the no-adjacent-hyphens invariant. -/
theorem stripHyphens_chain (l : List Char)
    (h : List.Chain' (fun a b =>
      (fun c => decide (c = '-')) a = false ∨ (fun c => decide (c = '-')) b = false) l) :
    List.Chain' (fun a b =>
      (fun c => decide (c = '-')) a = false ∨ (fun c => decide (c = '-')) b = false)
      (stripHyphens l) := by
  have hflip : (flip fun a b : Char =>
      (fun c => decide (c = '-')) a = false ∨ (fun c => decide (c = '-')) b = false) =
      (fun a b : Char =>
      (fun c => decide (c = '-')) a = false ∨ (fun c => decide (c = '-')) b = false) := by
    funext a b
    simp [flip, or_comm]
  rw [stripHyphens, List.chain'_reverse, hflip]
  refine List.Chain'.suffix ?_ (List.dropWhile_suffix _)
  rw [List.chain'_reverse, hflip]
  exact List.Chain'.suffix h (List.dropWhile_suffix _)

/-- `pyRFind` returns an index below the length. -/
theorem pyRFind_lt (c : Char) : ∀ l : List Char, pyRFind l c < l.length := by
  intro l
  induction l with
  | nil => simp [pyRFind]
  | cons x tl ih =>
    rw [pyRFind]
    by_cases hr : pyRFind tl c ≥ 0
    · rw [if_pos hr]
      simp only [List.length_cons]
      push_cast
      omega
    · rw [if_neg hr]
      by_cases hx : x = c
      · rw [if_pos hx]
        simp only [List.length_cons]
        omega
      · rw [if_neg hx]
        simp only [List.length_cons]
        omega

/-- At a nonnegative `pyRFind` index the sought character occurs. -/
theorem pyRFind_get (c : Char) :
    ∀ l : List Char, 0 ≤ pyRFind l c → l.get? (pyRFind l c).toNat = some c := by
  intro l
  induction l with
  | nil => intro h; simp [pyRFind] at h
  | cons x tl ih =>
    intro h
    rw [pyRFind]
    by_cases hr : pyRFind tl c ≥ 0
    · rw [if_pos hr]
      have : (pyRFind tl c + 1).toNat = (pyRFind tl c).toNat + 1 := by omega
      rw [this]
      simpa using ih hr
    · rw [if_neg hr]
      by_cases hx : x = c
      · rw [if_pos hx]
        simpa using hx
      · rw [if_neg hx]
        rw [pyRFind] at h
        rw [if_neg hr, if_neg hx] at h
        omega

/-- `pyRFind` bounds every occurrence of the character from above. -/
theorem pyRFind_ge (c : Char) :
    ∀ (l : List Char) (j : Nat), l.get? j = some c → (j : Int) ≤ pyRFind l c := by
  intro l
  induction l with
  | nil => intro j h; simp at h
  | cons x tl ih =>
    intro j h
    rw [pyRFind]
    cases j with
    | zero =>
      simp at h
      by_cases hr : pyRFind tl c ≥ 0
      · rw [if_pos hr]; omega
      · rw [if_neg hr, if_pos h]; omega
    | succ j' =>
      simp only [List.get?_cons_succ] at h
      have := ih j' h
      have hr : pyRFind tl c ≥ 0 := by omega
      rw [if_pos hr]
      omega

/-- Characters surviving `slugCore` are lowercase letters, digits, or
hyphens. -/
theorem slugCore_chars (k : String) :
    ∀ c ∈ slugCore k, ('a' ≤ c ∧ c ≤ 'z') ∨ ('0' ≤ c ∧ c ≤ '9') ∨ c = '-' := by
  intro c hc
  have hc2 := stripHyphens_subset _ hc
  rcases subRuns_mem _ '-' _ c hc2 with h | ⟨h1, _⟩
  · exact Or.inr (Or.inr h)
  · rcases subRuns_mem wsUnder '-' _ c h1 with h | ⟨h3, h4⟩
    · exact Or.inr (Or.inr h)
    · have h5 : slugKeep c = true := (List.mem_filter.mp h3).2
      have hws : pyWs c = false := by
        simp only [wsUnder, Bool.or_eq_false_iff] at h4
        exact h4.1
      simp only [slugKeep, jsonDigit, Bool.or_eq_true, Bool.and_eq_true,
        decide_eq_true_eq] at h5
      rcases h5 with ((h5 | h5) | h5) | h5
      · exact Or.inl h5
      · exact Or.inr (Or.inl h5)
      · rw [hws] at h5
        exact absurd h5 (by simp)
      · exact Or.inr (Or.inr h5)

/-- `slugCore` output has no two adjacent hyphens (in the
`decide`-relation form produced by `subRuns_chain`). -/
theorem slugCore_chain (k : String) :
    List.Chain' (fun a b =>
      (fun c => decide (c = '-')) a = false ∨ (fun c => decide (c = '-')) b = false)
      (slugCore k) :=
  stripHyphens_chain _ (subRuns_chain _ '-' _)

/-- `slugCore` output does not start with a hyphen. -/
theorem slugCore_head (k : String) (x : Char) (h : (slugCore k).head? = some x) :
    x ≠ '-' :=
  stripHyphens_head _ x h

/-- `slugCore` output does not end with a hyphen. -/
theorem slugCore_last (k : String) (x : Char) (h : (slugCore k).getLast? = some x) :
    x ≠ '-' :=
  stripHyphens_last _ x h

/-- Taking a positive-length prefix does not change the head. -/
theorem head?_take_pos (l : List Char) (n : Nat) (hn : 0 < n) :
    (l.take n).head? = l.head? := by
  cases l with
  | nil => simp
  | cons x xs =>
    cases n with
    | zero => omega
    | succ n => simp

/-- Conversion from the `decide`-relation of `subRuns_chain` to the
plain no-adjacent-hyphens relation. -/
theorem chain_conv (l : List Char)
    (h : List.Chain' (fun a b =>
      (fun c => decide (c = '-')) a = false ∨ (fun c => decide (c = '-')) b = false) l) :
    List.Chain' (fun a b => ¬(a = '-' ∧ b = '-')) l := by
  refine List.Chain'.imp ?_ h
  intro a b hab
  rintro ⟨ha, hb⟩
  rcases hab with hab | hab <;> simp [ha, hb] at hab

/-- C10: for every keyword, `generate_slug` with the default
`max_length = 100` returns a nonempty string of length at most 100 made
only of lowercase letters, digits and hyphens, with no leading, trailing
or repeated hyphen; when the keyword is empty or reduces to nothing
after the cleanup passes, it returns `"article"`. -/
theorem generate_slug_props (keyword : String) :
    generate_slug keyword 100 ≠ "" ∧
    (generate_slug keyword 100).length ≤ 100 ∧
    (∀ c ∈ (generate_slug keyword 100).data,
      ('a' ≤ c ∧ c ≤ 'z') ∨ ('0' ≤ c ∧ c ≤ '9') ∨ c = '-') ∧
    (generate_slug keyword 100).data.head? ≠ some '-' ∧
    (generate_slug keyword 100).data.getLast? ≠ some '-' ∧
    List.Chain' (fun a b => ¬(a = '-' ∧ b = '-')) (generate_slug keyword 100).data ∧
    ((keyword = "" ∨ slugCore keyword = []) → generate_slug keyword 100 = "article") := by
  have harticle : ("article" : String) ≠ "" ∧ ("article" : String).length ≤ 100 ∧
      (∀ c ∈ ("article" : String).data,
        ('a' ≤ c ∧ c ≤ 'z') ∨ ('0' ≤ c ∧ c ≤ '9') ∨ c = '-') ∧
      ("article" : String).data.head? ≠ some '-' ∧
      ("article" : String).data.getLast? ≠ some '-' ∧
      List.Chain' (fun a b => ¬(a = '-' ∧ b = '-')) ("article" : String).data := by
    refine ⟨by decide, by decide, by decide, by decide, by decide, ?_⟩
    have h : ("article" : String).data = ['a', 'r', 't', 'i', 'c', 'l', 'e'] := rfl
    rw [h]
    simp [List.chain'_cons]
  by_cases hk : keyword = ""
  · rw [generate_slug, if_pos hk]
    exact ⟨harticle.1, harticle.2.1, harticle.2.2.1, harticle.2.2.2.1,
      harticle.2.2.2.2.1, harticle.2.2.2.2.2, fun _ => rfl⟩
  · rw [generate_slug, if_neg hk]
    simp only []
    by_cases he : (slugCore keyword).isEmpty
    · rw [if_pos he]
      exact ⟨harticle.1, harticle.2.1, harticle.2.2.1, harticle.2.2.2.1,
        harticle.2.2.2.2.1, harticle.2.2.2.2.2, fun _ => rfl⟩
    · rw [if_neg he]
      have hne : slugCore keyword ≠ [] := by
        intro hc
        exact he (by simp [hc])
      have hlast7 : (keyword = "" ∨ slugCore keyword = []) → False := by
        rintro (h | h)
        · exact hk h
        · exact hne h
      by_cases hlen : (slugCore keyword).length > 100
      · rw [if_pos hlen]
        have ht100 : ((slugCore keyword).take 100).length = 100 := by
          simp [List.length_take]
          omega
        have hchain_t : List.Chain' (fun a b =>
            (fun c => decide (c = '-')) a = false ∨ (fun c => decide (c = '-')) b = false)
            ((slugCore keyword).take 100) :=
          List.Chain'.take (slugCore_chain keyword) 100
        have hrflt : pyRFind ((slugCore keyword).take 100) '-' < 100 := by
          have h1 := pyRFind_lt '-' ((slugCore keyword).take 100)
          omega
        have hhead_t : ((slugCore keyword).take 100).head? = (slugCore keyword).head? :=
          head?_take_pos _ 100 (by omega)
        by_cases hrf : pyRFind ((slugCore keyword).take 100) '-' > ((100 : Nat) : Int) / 2
        · rw [if_pos hrf]
          set t := (slugCore keyword).take 100 with htdef
          set idx := (pyRFind t '-').toNat with hidxdef
          have hidx : 51 ≤ idx ∧ idx ≤ 99 := by
            constructor <;> omega
          have hlen_res : (t.take idx).length = idx := by
            simp [List.length_take]
            omega
          refine ⟨?_, ?_, ?_, ?_, ?_, ?_, fun h => absurd h hlast7⟩
          · intro hcon
            have hz : (t.take idx) = [] := by simpa [String.ext_iff] using hcon
            rw [hz] at hlen_res
            simp at hlen_res
            omega
          · show (t.take idx).length ≤ 100
            omega
          · intro c hc
            exact slugCore_chars keyword c (List.take_subset _ _ (List.take_subset _ _ hc))
          · show (t.take idx).head? ≠ some '-'
            rw [head?_take_pos t idx (by omega), htdef, hhead_t]
            intro h
            exact slugCore_head keyword '-' h rfl
          · show (t.take idx).getLast? ≠ some '-'
            intro hlastc
            rw [List.getLast?_eq_getElem?] at hlastc
            rw [hlen_res] at hlastc
            have hg1 : t.get? (idx - 1) = some '-' := by
              rw [List.get?_eq_getElem?]
              rw [← List.getElem?_take_of_lt (l := t) (n := idx) (by omega : idx - 1 < idx)]
              exact hlastc
            have hg2 : t.get? idx = some '-' := by
              have hp := pyRFind_get '-' t (by omega)
              rwa [← hidxdef] at hp
            have hidxlen : idx < t.length := by rw [ht100]; omega
            have hidx1len : idx - 1 < t.length := by omega
            have hR := List.chain'_iff_get.mp hchain_t (idx - 1) (by
              rw [ht100]; omega)
            rw [List.get?_eq_get hidx1len] at hg1
            rw [List.get?_eq_get hidxlen] at hg2
            simp only [Option.some.injEq] at hg1 hg2
            rw [hg1] at hR
            rcases hR with hbad | hbad
            · simp at hbad
            · have hsame : t.get ⟨idx - 1 + 1, by omega⟩ = t.get ⟨idx, by omega⟩ := by
                congr 1
                simp
                omega
              rw [hsame, hg2] at hbad
              simp at hbad
          · exact chain_conv _ (List.Chain'.take hchain_t idx)
        · rw [if_neg hrf]
          set t := (slugCore keyword).take 100 with htdef
          refine ⟨?_, ?_, ?_, ?_, ?_, ?_, fun h => absurd h hlast7⟩
          · intro hcon
            have hz : t = [] := by simpa [String.ext_iff] using hcon
            rw [hz] at ht100
            simp at ht100
          · show t.length ≤ 100
            omega
          · intro c hc
            exact slugCore_chars keyword c (List.take_subset _ _ hc)
          · show t.head? ≠ some '-'
            rw [htdef, hhead_t]
            intro h
            exact slugCore_head keyword '-' h rfl
          · show t.getLast? ≠ some '-'
            intro hlastc
            rw [List.getLast?_eq_getElem?, ht100] at hlastc
            have hg : t.get? 99 = some '-' := by
              rw [List.get?_eq_getElem?]
              simpa using hlastc
            have hge := pyRFind_ge '-' t 99 hg
            omega
          · exact chain_conv _ hchain_t
      · rw [if_neg hlen]
        refine ⟨?_, ?_, ?_, ?_, ?_, ?_, fun h => absurd h hlast7⟩
        · intro hcon
          exact hne (by simpa [String.ext_iff] using hcon)
        · show (slugCore keyword).length ≤ 100
          omega
        · exact slugCore_chars keyword
        · intro h
          exact slugCore_head keyword '-' h rfl
        · intro h
          exact slugCore_last keyword '-' h rfl
        · exact chain_conv _ (slugCore_chain keyword)

/-- Witness for `generate_slug_props`: the empty keyword falls back to
`"article"`, and a mixed keyword yields a nonempty slug. -/
theorem generate_slug_props_witness :
    generate_slug "" 100 = "article" ∧ generate_slug "Hello, World!" 100 ≠ "" := by
  exact ⟨(generate_slug_props "").2.2.2.2.2.2 (Or.inl rfl),
         (generate_slug_props "Hello, World!").1⟩

/-! ## C5: `basic_company_detection` -/

theorem splitFirst_suffix (sep : List Char) :
    ∀ (cs a b : List Char), splitFirst sep cs = some (a, b) → ∀ x ∈ b, x ∈ cs := by
  intro cs
  induction cs with
  | nil =>
    intro a b h
    simp only [splitFirst] at h
    split at h
    · simp only [Option.some.injEq, Prod.mk.injEq] at h
      obtain ⟨-, h2⟩ := h
      subst h2
      intro x hx
      cases hx
    · cases h
  | cons c tl ih =>
    intro a b h
    rw [splitFirst] at h
    by_cases hs : listStarts sep (c :: tl) = true
    · rw [hs] at h
      simp only [if_true, Option.some.injEq, Prod.mk.injEq] at h
      obtain ⟨-, h2⟩ := h
      subst h2
      intro x hx
      exact (List.drop_sublist _ _).subset hx
    · rw [Bool.not_eq_true] at hs
      rw [hs] at h
      simp only [Bool.false_eq_true, if_false] at h
      match hsf : splitFirst sep tl with
      | none => rw [hsf] at h; cases h
      | some (a2, b2) =>
        rw [hsf] at h
        simp only [Option.some.injEq, Prod.mk.injEq] at h
        obtain ⟨-, h2⟩ := h
        subst h2
        intro x hx
        exact List.mem_cons_of_mem c (ih a2 b2 hsf x hx)

theorem mem_schemeStrip (cs : List Char) (x : Char) (h : x ∈ schemeStrip cs) : x ∈ cs := by
  rw [schemeStrip] at h
  match hsf : splitFirst [':'] cs with
  | none => rw [hsf] at h; exact h
  | some (pre, after) =>
    rw [hsf] at h
    simp only at h
    by_cases hv : isValidScheme pre = true
    · rw [if_pos hv] at h
      exact splitFirst_suffix [':'] cs pre after hsf x h
    · rw [if_neg hv] at h
      exact h

theorem mem_urlPrep (url : String) (x : Char) (h : x ∈ urlPrep url) : x ∈ url.data := by
  rw [urlPrep] at h
  exact (List.dropWhile_sublist _).subset (List.mem_of_mem_filter h)

theorem mem_netlocChars (rest : List Char) (x : Char) (h : x ∈ netlocChars rest) : x ∈ rest := by
  rw [netlocChars] at h
  exact (List.drop_sublist _ _).subset ((List.takeWhile_sublist _).subset h)

/-- A URL containing no square bracket never triggers `urlparse`'s
IPv6 `ValueError` paths. -/
theorem netlocOf_no_brackets (u : String)
    (h : ∀ c ∈ u.data, c ≠ '[' ∧ c ≠ ']') : (netlocOf u).isOk = true := by
  rw [netlocOf]
  have hmem : ∀ x ∈ netlocChars (schemeStrip (urlPrep u)), x ∈ u.data :=
    fun x hx => mem_urlPrep u x (mem_schemeStrip _ x (mem_netlocChars _ x hx))
  have hL : (netlocChars (schemeStrip (urlPrep u))).any (· = '[') = false := by
    rw [List.any_eq_false]
    intro x hx
    simpa using (h x (hmem x hx)).1
  have hR : (netlocChars (schemeStrip (urlPrep u))).any (· = ']') = false := by
    rw [List.any_eq_false]
    intro x hx
    simpa using (h x (hmem x hx)).2
  cases hls : listStarts ['/', '/'] (schemeStrip (urlPrep u)) with
  | false => simp [hls, Except.toBool]
  | true => simp [hls, hL, hR, Except.toBool]

/-- C5 counterexample: `basic_company_detection "["` raises
`ValueError("Invalid IPv6 URL")` — `urlparse("https://[")` sees a
netloc with an unmatched bracket — refuting "cannot fail for any input
URL". -/
theorem basic_detection_counterexample :
    basic_company_detection "[" = .error "Invalid IPv6 URL" := rfl

/-- C5 (amended): `basic_company_detection "example.com"` returns a
`CompanyContext` with company name `"Example"`, company URL
`"https://example.com"`, and every other field at its class default
(`primary_country = "US"`, `primary_language = "en"`,
`tone = "professional"`, all list fields empty), performing no network
call; and detection cannot fail for any URL containing no square
bracket (the only `ValueError` paths of `urlparse` are the bracketed
IPv6 host checks). -/
theorem basic_detection_props :
    (basic_company_detection "example.com" =
      .ok { company_name := "Example", company_url := "https://example.com" } ∧
     (basic_company_detection "example.com").map (fun c => (c.primary_country,
       c.primary_language, c.tone, c.products, c.authors)) =
      .ok ("US", "en", "professional", [], [])) ∧
    (∀ url : String, (∀ c ∈ url.data, c ≠ '[' ∧ c ≠ ']') →
      (basic_company_detection url).isOk = true) := by
  refine ⟨⟨rfl, rfl⟩, fun url h => ?_⟩
  have hn : ∀ c ∈ (normalizeUrl url).data, c ≠ '[' ∧ c ≠ ']' := by
    rw [normalizeUrl]
    by_cases hs : strStarts url "http" = true
    · rw [if_pos hs]
      exact h
    · rw [if_neg hs]
      intro c hc
      rw [String.data_append] at hc
      rcases List.mem_append.mp hc with hc | hc
      · exact ⟨fun he => by subst he; exact absurd hc (by decide),
               fun he => by subst he; exact absurd hc (by decide)⟩
      · exact h c hc
  have hok := netlocOf_no_brackets (normalizeUrl url) hn
  rw [basic_company_detection]
  cases hno : netlocOf (normalizeUrl url) with
  | error e => rw [hno] at hok; exact absurd hok (by simp [Except.toBool])
  | ok nl => rfl

/-- C5 witness: a concrete bracket-free URL on which the amended
no-failure statement applies. -/
theorem basic_detection_props_witness :
    (basic_company_detection "sub-domain.example.com").isOk = true :=
  basic_detection_props.2 "sub-domain.example.com" (by decide)

/-! ## C9: URL scheme normalisation -/

/-- Does the URL contain an explicit scheme separator `://`?  (This is
the spec's notion of "given with a scheme".) -/
def urlHasScheme (url : String) : Bool := strHas url "://"

/-- C9 counterexample: `"ftp://example.com"` is a URL given with a
scheme, yet the core operations do not use it unchanged — the code only
tests for the prefix `"http"`, so it prefixes `https://` onto it. -/
theorem normalize_scheme_counterexample :
    urlHasScheme "ftp://example.com" = true ∧
    (basic_company_detection "ftp://example.com").map (fun c => c.company_url) =
      .ok "https://ftp://example.com" ∧
    normalizeUrl "ftp://example.com" ≠ "ftp://example.com" := by
  refine ⟨rfl, rfl, ?_⟩
  decide

/-- C9 (amended): a URL starting with the four characters `"http"` is
used unchanged, and any other URL is used prefixed with `https://`; the
URL recorded by a successful `basic_company_detection` is exactly this
normalised URL (and `run_opencontext`, lines 127-129, applies the same
`normalizeUrl` to its argument). -/
theorem normalize_url_spec (url : String) :
    (strStarts url "http" = true → normalizeUrl url = url) ∧
    (strStarts url "http" = false → normalizeUrl url = "https://" ++ url) ∧
    (∀ ctx, basic_company_detection url = .ok ctx → ctx.company_url = normalizeUrl url) := by
  refine ⟨fun h => ?_, fun h => ?_, fun ctx hctx => ?_⟩
  · simp [normalizeUrl, h]
  · simp [normalizeUrl, h]
  · rw [basic_company_detection] at hctx
    cases hno : netlocOf (normalizeUrl url) with
    | error e => rw [hno] at hctx; cases hctx
    | ok nl =>
      rw [hno] at hctx
      simp only [Except.ok.injEq] at hctx
      rw [← hctx]

/-- Witness for `normalize_url_spec` at concrete URLs, exercising both
normalisation branches and the recorded-URL clause. -/
theorem normalize_url_spec_witness :
    normalizeUrl "http://a.com" = "http://a.com" ∧
    normalizeUrl "example.com" = "https://" ++ "example.com" ∧
    ({ company_name := "Example", company_url := "https://example.com" } :
      CompanyContext).company_url = normalizeUrl "example.com" := by
  exact ⟨(normalize_url_spec "http://a.com").1 rfl,
         (normalize_url_spec "example.com").2.1 rfl,
         (normalize_url_spec "example.com").2.2
           { company_name := "Example", company_url := "https://example.com" } rfl⟩

/-! ## C7: `get_company_context` without a credential -/

/-- C7: when no credential is available (argument and both environment
variables absent), `get_company_context` performs no model call and no
retry (its result does not depend on the modelled remote outcome at
all); with `fallback_on_error = true` it returns
`(basic_company_detection url, false)` (a `ValueError` from the basic
detection propagating), with `fallback_on_error = false` it raises
`ValueError` immediately; and in general the boolean of a successful
return is `true` exactly when a truthy key was available and the remote
call path succeeded with that context. -/
theorem get_company_context_no_key :
    (∀ url r, get_company_context none none none true url r =
      (basic_company_detection url).map (fun c => (c, false))) ∧
    (∀ url r, get_company_context none none none false url r =
      .error "No Gemini API key available") ∧
    (∀ fb url r r', get_company_context none none none fb url r =
      get_company_context none none none fb url r') ∧
    (∀ k e1 e2 fb url r ctx b,
      get_company_context k e1 e2 fb url r = .ok (ctx, b) →
      (b = true ↔ ((pyOrStr (pyOrStr k e1) e2).elim false (· ≠ "") = true ∧ r = .ok ctx))) := by
  refine ⟨fun url r => rfl, fun url r => rfl, fun fb url r r' => by cases fb <;> rfl,
    fun k e1 e2 fb url r ctx b h => ?_⟩
  unfold get_company_context at h
  by_cases hk : (pyOrStr (pyOrStr k e1) e2).elim false (· ≠ "") = true
  · simp only [hk, Bool.not_true, Bool.false_eq_true, if_false] at h
    cases r with
    | ok c =>
      simp only [Except.ok.injEq, Prod.mk.injEq] at h
      constructor
      · exact fun _ => ⟨hk, by rw [h.1]⟩
      · exact fun _ => h.2.symm
    | error e =>
      cases fb with
      | false => simp at h
      | true =>
        simp only [if_true] at h
        cases hbd : basic_company_detection url with
        | error e2 => rw [hbd] at h; simp [Except.map] at h
        | ok c =>
          rw [hbd] at h
          simp only [Except.map, Except.ok.injEq, Prod.mk.injEq] at h
          constructor
          · intro hb; rw [← h.2] at hb; exact absurd hb (by simp)
          · rintro ⟨-, h2⟩; exact absurd h2 (by simp)
  · rw [Bool.not_eq_true] at hk
    simp only [hk, Bool.not_false, if_true] at h
    cases fb with
    | false => simp at h
    | true =>
      simp only [if_true] at h
      cases hbd : basic_company_detection url with
      | error e2 => rw [hbd] at h; simp [Except.map] at h
      | ok c =>
        rw [hbd] at h
        simp only [Except.map, Except.ok.injEq, Prod.mk.injEq] at h
        constructor
        · intro hb; rw [← h.2] at hb; exact absurd hb (by simp)
        · rintro ⟨h1, -⟩; rw [hk] at h1; exact absurd h1 (by simp)

/-- Witness for `get_company_context_no_key` at concrete inputs. -/
theorem get_company_context_no_key_witness :
    get_company_context none none none true "example.com" (.error "boom") =
      (basic_company_detection "example.com").map (fun c => (c, false)) ∧
    get_company_context none none none false "example.com" (.error "boom") =
      .error "No Gemini API key available" ∧
    (true = true ↔ ((pyOrStr (pyOrStr (some "k") none) none).elim false (· ≠ "") = true ∧
      (.ok {} : Except String CompanyContext) = .ok ({} : CompanyContext))) := by
  refine ⟨get_company_context_no_key.1 "example.com" (.error "boom"),
          get_company_context_no_key.2.1 "example.com" (.error "boom"),
          get_company_context_no_key.2.2.2 (some "k") none none true "example.com"
            (.ok {}) {} true ?_⟩
  rfl

/-! ## C6 / C8: `CompanyContext.from_dict` -/

/-- Extracting the first step of a successful `Except` bind. -/
theorem except_bind_ok {ε α β : Type} (e : Except ε α) (f : α → Except ε β) (b : β)
    (h : (e >>= f) = .ok b) : ∃ a, e = .ok a ∧ f a = .ok b := by
  cases e with
  | ok a => exact ⟨a, rfl, h⟩
  | error err => simp [Bind.bind, Except.bind] at h

/-- The keys of `CompanyContext.model_fields`, in declaration order. -/
def modelFields : List String :=
  ["company_name", "company_url", "industry", "description", "products",
   "target_audience", "competitors", "competitor_categories", "primary_region",
   "primary_country", "primary_language", "tone", "pain_points",
   "value_propositions", "use_cases", "content_themes", "voice_persona",
   "visual_identity", "authors"]

/-- Filtering a dict to the model fields does not change lookups of
model-field keys. -/
theorem pyLookup_filter (k : String) (hk : modelFields.contains k = true) :
    ∀ d : List (String × PyVal),
      pyLookup (d.filter fun kv => modelFields.contains kv.1) k = pyLookup d k := by
  intro d
  induction d with
  | nil => rfl
  | cons kv tl ih =>
    obtain ⟨k', v⟩ := kv
    by_cases hc : modelFields.contains k' = true
    · rw [List.filter_cons_of_pos (by simpa using hc)]
      rw [pyLookup, pyLookup]
      by_cases hkk : k' = k
      · rw [if_pos hkk, if_pos hkk]
      · rw [if_neg hkk, if_neg hkk]
        exact ih
    · rw [List.filter_cons_of_neg (by simpa using hc)]
      rw [pyLookup]
      have hkk : k' ≠ k := by
        intro he
        exact hc (he ▸ hk)
      rw [if_neg hkk]
      exact ih

/-- `fieldStr` only looks at the key's binding. -/
theorem fieldStr_congr (d1 d2 : List (String × PyVal)) (k dflt : String)
    (h : pyLookup d1 k = pyLookup d2 k) : fieldStr d1 k dflt = fieldStr d2 k dflt := by
  unfold fieldStr
  rw [h]

/-- `fieldStrList` only looks at the key's binding. -/
theorem fieldStrList_congr (d1 d2 : List (String × PyVal)) (k : String)
    (h : pyLookup d1 k = pyLookup d2 k) : fieldStrList d1 k = fieldStrList d2 k := by
  unfold fieldStrList
  rw [h]

/-- The body of `from_dict` depends only on the bindings of the model
fields. -/
theorem fromDictBody_congr (d1 d2 : List (String × PyVal))
    (h : ∀ k, modelFields.contains k = true → pyLookup d1 k = pyLookup d2 k) :
    CompanyContext.fromDictBody d1 = CompanyContext.fromDictBody d2 := by
  unfold CompanyContext.fromDictBody
  rw [h "voice_persona" (by decide), h "visual_identity" (by decide),
    h "authors" (by decide),
    fieldStr_congr d1 d2 "company_name" "" (h _ (by decide)),
    fieldStr_congr d1 d2 "company_url" "" (h _ (by decide)),
    fieldStr_congr d1 d2 "industry" "" (h _ (by decide)),
    fieldStr_congr d1 d2 "description" "" (h _ (by decide)),
    fieldStrList_congr d1 d2 "products" (h _ (by decide)),
    fieldStr_congr d1 d2 "target_audience" "" (h _ (by decide)),
    fieldStrList_congr d1 d2 "competitors" (h _ (by decide)),
    fieldStrList_congr d1 d2 "competitor_categories" (h _ (by decide)),
    fieldStr_congr d1 d2 "primary_region" "" (h _ (by decide)),
    fieldStr_congr d1 d2 "primary_country" "US" (h _ (by decide)),
    fieldStr_congr d1 d2 "primary_language" "en" (h _ (by decide)),
    fieldStr_congr d1 d2 "tone" "professional" (h _ (by decide)),
    fieldStrList_congr d1 d2 "pain_points" (h _ (by decide)),
    fieldStrList_congr d1 d2 "value_propositions" (h _ (by decide)),
    fieldStrList_congr d1 d2 "use_cases" (h _ (by decide)),
    fieldStrList_congr d1 d2 "content_themes" (h _ (by decide))]

/-- C8: for every input mapping, `from_dict` ignores keys that are not
fields of `CompanyContext` (filtering them away changes nothing), the
empty mapping yields the all-defaults context, and in every produced
context each field whose key is absent from the mapping carries its
default — empty for lists and strings, `"US"` / `"en"` /
`"professional"` for country, language and tone, the default nested
records for `voice_persona` / `visual_identity` — so no field is ever
absent. -/
theorem from_dict_invariants (d : List (String × PyVal)) :
    CompanyContext.from_dict d =
      CompanyContext.from_dict (d.filter fun kv => modelFields.contains kv.1) ∧
    CompanyContext.from_dict ([] : List (String × PyVal)) = .ok {} ∧
    ∀ ctx, CompanyContext.from_dict d = .ok ctx →
      (pyLookup d "company_name" = none → ctx.company_name = "") ∧
      (pyLookup d "company_url" = none → ctx.company_url = "") ∧
      (pyLookup d "industry" = none → ctx.industry = "") ∧
      (pyLookup d "description" = none → ctx.description = "") ∧
      (pyLookup d "products" = none → ctx.products = []) ∧
      (pyLookup d "target_audience" = none → ctx.target_audience = "") ∧
      (pyLookup d "competitors" = none → ctx.competitors = []) ∧
      (pyLookup d "competitor_categories" = none → ctx.competitor_categories = []) ∧
      (pyLookup d "primary_region" = none → ctx.primary_region = "") ∧
      (pyLookup d "primary_country" = none → ctx.primary_country = "US") ∧
      (pyLookup d "primary_language" = none → ctx.primary_language = "en") ∧
      (pyLookup d "tone" = none → ctx.tone = "professional") ∧
      (pyLookup d "pain_points" = none → ctx.pain_points = []) ∧
      (pyLookup d "value_propositions" = none → ctx.value_propositions = []) ∧
      (pyLookup d "use_cases" = none → ctx.use_cases = []) ∧
      (pyLookup d "content_themes" = none → ctx.content_themes = []) ∧
      (pyLookup d "voice_persona" = none → ctx.voice_persona = {}) ∧
      (pyLookup d "visual_identity" = none → ctx.visual_identity = {}) ∧
      (pyLookup d "authors" = none → ctx.authors = []) := by
  have hlookup : ∀ k, modelFields.contains k = true →
      pyLookup (d.filter fun kv => modelFields.contains kv.1) k = pyLookup d k :=
    fun k hk => pyLookup_filter k hk d
  refine ⟨?_, rfl, ?_⟩
  · by_cases hd : d.isEmpty
    · have hnil : d = [] := by
        cases d with
        | nil => rfl
        | cons kv tl => simp at hd
      rw [hnil]
      rfl
    · rw [CompanyContext.from_dict, CompanyContext.from_dict, if_neg hd]
      by_cases hf : (d.filter fun kv => modelFields.contains kv.1).isEmpty
      · rw [if_pos hf]
        have hfe : (d.filter fun kv => modelFields.contains kv.1) = [] := by
          cases hc : (d.filter fun kv => modelFields.contains kv.1) with
          | nil => rfl
          | cons kv tl => rw [hc] at hf; simp at hf
        rw [fromDictBody_congr d [] (fun k hk => by
          rw [← hlookup k hk, hfe])]
        rfl
      · rw [if_neg hf]
        exact (fromDictBody_congr _ _ hlookup).symm
  · intro ctx h
    by_cases hd : d.isEmpty
    · have hnil : d = [] := by
        cases d with
        | nil => rfl
        | cons kv tl => simp at hd
      subst hnil
      rw [CompanyContext.from_dict] at h
      simp only [List.isEmpty_nil, if_true, Except.ok.injEq] at h
      subst h
      exact ⟨fun _ => rfl, fun _ => rfl, fun _ => rfl, fun _ => rfl, fun _ => rfl,
        fun _ => rfl, fun _ => rfl, fun _ => rfl, fun _ => rfl, fun _ => rfl,
        fun _ => rfl, fun _ => rfl, fun _ => rfl, fun _ => rfl, fun _ => rfl,
        fun _ => rfl, fun _ => rfl, fun _ => rfl, fun _ => rfl⟩
    · rw [CompanyContext.from_dict, if_neg hd] at h
      rw [CompanyContext.fromDictBody] at h
      obtain ⟨vp, hvp, h⟩ := except_bind_ok _ _ _ h
      obtain ⟨vi, hvi, h⟩ := except_bind_ok _ _ _ h
      obtain ⟨au, hau, h⟩ := except_bind_ok _ _ _ h
      obtain ⟨f1, hf1, h⟩ := except_bind_ok _ _ _ h
      obtain ⟨f2, hf2, h⟩ := except_bind_ok _ _ _ h
      obtain ⟨f3, hf3, h⟩ := except_bind_ok _ _ _ h
      obtain ⟨f4, hf4, h⟩ := except_bind_ok _ _ _ h
      obtain ⟨f5, hf5, h⟩ := except_bind_ok _ _ _ h
      obtain ⟨f6, hf6, h⟩ := except_bind_ok _ _ _ h
      obtain ⟨f7, hf7, h⟩ := except_bind_ok _ _ _ h
      obtain ⟨f8, hf8, h⟩ := except_bind_ok _ _ _ h
      obtain ⟨f9, hf9, h⟩ := except_bind_ok _ _ _ h
      obtain ⟨f10, hf10, h⟩ := except_bind_ok _ _ _ h
      obtain ⟨f11, hf11, h⟩ := except_bind_ok _ _ _ h
      obtain ⟨f12, hf12, h⟩ := except_bind_ok _ _ _ h
      obtain ⟨f13, hf13, h⟩ := except_bind_ok _ _ _ h
      obtain ⟨f14, hf14, h⟩ := except_bind_ok _ _ _ h
      obtain ⟨f15, hf15, h⟩ := except_bind_ok _ _ _ h
      obtain ⟨f16, hf16, h⟩ := except_bind_ok _ _ _ h
      have hctx : ctx =
          { company_name := f1, company_url := f2, industry := f3,
            description := f4, products := f5, target_audience := f6, competitors := f7,
            competitor_categories := f8, primary_region := f9, primary_country := f10,
            primary_language := f11, tone := f12, pain_points := f13,
            value_propositions := f14, use_cases := f15, content_themes := f16,
            voice_persona := vp, visual_identity := vi, authors := au } := by
        simpa [pure, Except.pure] using h.symm
      subst hctx
      refine ⟨?_, ?_, ?_, ?_, ?_, ?_, ?_, ?_, ?_, ?_, ?_, ?_, ?_, ?_, ?_, ?_, ?_, ?_, ?_⟩
      · intro hn; rw [fieldStr, hn] at hf1; simpa using hf1.symm
      · intro hn; rw [fieldStr, hn] at hf2; simpa using hf2.symm
      · intro hn; rw [fieldStr, hn] at hf3; simpa using hf3.symm
      · intro hn; rw [fieldStr, hn] at hf4; simpa using hf4.symm
      · intro hn; rw [fieldStrList, hn] at hf5; simpa using hf5.symm
      · intro hn; rw [fieldStr, hn] at hf6; simpa using hf6.symm
      · intro hn; rw [fieldStrList, hn] at hf7; simpa using hf7.symm
      · intro hn; rw [fieldStrList, hn] at hf8; simpa using hf8.symm
      · intro hn; rw [fieldStr, hn] at hf9; simpa using hf9.symm
      · intro hn; rw [fieldStr, hn] at hf10; simpa using hf10.symm
      · intro hn; rw [fieldStr, hn] at hf11; simpa using hf11.symm
      · intro hn; rw [fieldStr, hn] at hf12; simpa using hf12.symm
      · intro hn; rw [fieldStrList, hn] at hf13; simpa using hf13.symm
      · intro hn; rw [fieldStrList, hn] at hf14; simpa using hf14.symm
      · intro hn; rw [fieldStrList, hn] at hf15; simpa using hf15.symm
      · intro hn; rw [fieldStrList, hn] at hf16; simpa using hf16.symm
      · intro hn; rw [hn] at hvp; simpa [parseVoicePersonaField] using hvp.symm
      · intro hn; rw [hn] at hvi; simpa [parseVisualIdentityField] using hvi.symm
      · intro hn; rw [hn] at hau; simpa [parseAuthorsField] using hau.symm

/-- Witness for `from_dict_invariants`: a mapping with only an unknown
key assembles to the all-defaults context, and the defaults hold. -/
theorem from_dict_invariants_witness :
    CompanyContext.from_dict [("junk", PyVal.vnone)] = .ok {} ∧
    ({} : CompanyContext).primary_country = "US" ∧
    ({} : CompanyContext).products = [] := by
  refine ⟨rfl, ?_, ?_⟩
  · exact (((from_dict_invariants [("junk", PyVal.vnone)]).2.2 {} rfl).2.2.2.2.2.2.2.2.2.1) rfl
  · exact (((from_dict_invariants [("junk", PyVal.vnone)]).2.2 {} rfl).2.2.2.2.1) rfl

/-- A value acceptable for an author's optional string field after the
`None → ""` cleaning: absent, `None`, or a string. -/
def okStrOpt : Option PyVal → Bool
  | none => true
  | some .vnone => true
  | some (.vstr _) => true
  | _ => false

/-- A well-formed author entry: a nonempty string under `name`, and
every other author field (when present) a string or `None`. -/
def authorWellFormed (kvs : List (String × PyVal)) : Bool :=
  (match pyLookup kvs "name" with
   | some (.vstr s) => s ≠ ""
   | _ => false) &&
  okStrOpt (pyLookup kvs "title") && okStrOpt (pyLookup kvs "bio") &&
  okStrOpt (pyLookup kvs "image_url") && okStrOpt (pyLookup kvs "linkedin_url") &&
  okStrOpt (pyLookup kvs "twitter_url")

/-- An acceptable optional field reads back successfully. -/
theorem readAuthorField_ok (d : List (String × PyVal)) (k : String)
    (h : okStrOpt (pyLookup d k) = true) :
    ∃ s, readAuthorField d k (.ok "") = .ok s := by
  cases hv : pyLookup d k with
  | none => exact ⟨"", by simp [readAuthorField, hv]⟩
  | some v =>
    cases v with
    | vnone => exact ⟨"", by simp [readAuthorField, hv]⟩
    | vstr s => exact ⟨s, by simp [readAuthorField, hv]⟩
    | vbool b => rw [hv] at h; simp [okStrOpt] at h
    | vint n => rw [hv] at h; simp [okStrOpt] at h
    | vlist xs => rw [hv] at h; simp [okStrOpt] at h
    | vdict kvs => rw [hv] at h; simp [okStrOpt] at h

/-- A well-formed author entry validates successfully. -/
theorem fromPyCleaned_ok (kvs : List (String × PyVal))
    (h : authorWellFormed kvs = true) :
    ∃ a, AuthorInfo.fromPyCleaned kvs = .ok a := by
  simp only [authorWellFormed, Bool.and_eq_true] at h
  obtain ⟨⟨⟨⟨⟨hn, h1⟩, h2⟩, h3⟩, h4⟩, h5⟩ := h
  obtain ⟨s1, e1⟩ := readAuthorField_ok kvs "title" h1
  obtain ⟨s2, e2⟩ := readAuthorField_ok kvs "bio" h2
  obtain ⟨s3, e3⟩ := readAuthorField_ok kvs "image_url" h3
  obtain ⟨s4, e4⟩ := readAuthorField_ok kvs "linkedin_url" h4
  obtain ⟨s5, e5⟩ := readAuthorField_ok kvs "twitter_url" h5
  cases hv : pyLookup kvs "name" with
  | none => rw [hv] at hn; simp at hn
  | some v =>
    cases v with
    | vstr s =>
      have ename : readAuthorField kvs "name" (.error "missing name") = .ok s := by
        simp [readAuthorField, hv]
      refine ⟨{ name := s, title := s1, bio := s2, image_url := s3,
                linkedin_url := s4, twitter_url := s5 }, ?_⟩
      rw [AuthorInfo.fromPyCleaned]
      rw [ename, e1, e2, e3, e4, e5]
      rfl
    | vnone => rw [hv] at hn; simp at hn
    | vbool b => rw [hv] at hn; simp at hn
    | vint n => rw [hv] at hn; simp at hn
    | vlist xs => rw [hv] at hn; simp at hn
    | vdict kvs' => rw [hv] at hn; simp at hn

/-- C6 counterexample: the claim fails as stated — an authors list whose
valid-looking entry has a non-empty name but a non-string `title` makes
`from_dict` raise a validation error instead of yielding a context with
one author. -/
theorem from_dict_author_counterexample :
    pyLookup [("name", PyVal.vstr "A"), ("title", PyVal.vint 5)] "name" =
      some (.vstr "A") ∧
    ("A" : String) ≠ "" ∧
    pyLookup ([] : List (String × PyVal)) "name" = none ∧
    CompanyContext.from_dict
      [("authors", PyVal.vlist
        [PyVal.vdict [("name", PyVal.vstr "A"), ("title", PyVal.vint 5)],
         PyVal.vdict []])] = .error "string_type" := by
  exact ⟨rfl, by decide, rfl, rfl⟩

/-- C6 (amended): for every mapping whose `authors` list holds one
well-formed entry (non-empty `name`, string-typed fields) and one entry
lacking `name`, any successfully assembled context contains exactly the
one valid author; the nameless entry is dropped without raising. -/
theorem from_dict_two_authors (d x y : List (String × PyVal))
    (hx : authorWellFormed x = true)
    (hy : pyLookup y "name" = none)
    (ha : pyLookup d "authors" = some (.vlist [.vdict x, .vdict y])) :
    ∀ ctx, CompanyContext.from_dict d = .ok ctx →
      ∃ a, AuthorInfo.fromPyCleaned x = .ok a ∧ ctx.authors = [a] := by
  intro ctx h
  have hd : ¬ d.isEmpty = true := by
    cases d with
    | nil => rw [pyLookup] at ha; cases ha
    | cons kv tl => simp
  rw [CompanyContext.from_dict, if_neg hd] at h
  rw [CompanyContext.fromDictBody] at h
  obtain ⟨vp, hvp, h⟩ := except_bind_ok _ _ _ h
  obtain ⟨vi, hvi, h⟩ := except_bind_ok _ _ _ h
  obtain ⟨au, hau, h⟩ := except_bind_ok _ _ _ h
  rw [ha] at hau
  simp only [parseAuthorsField] at hau
  have hcond : (pyLookup x "name").elim false pyTruthy = true := by
    simp only [authorWellFormed, Bool.and_eq_true] at hx
    have hn := hx.1.1.1.1.1
    cases hv : pyLookup x "name" with
    | none => rw [hv] at hn; simp at hn
    | some v =>
      cases v with
      | vstr s => rw [hv] at hn; simpa [pyTruthy] using hn
      | vnone => rw [hv] at hn; simp at hn
      | vbool b => rw [hv] at hn; simp at hn
      | vint n => rw [hv] at hn; simp at hn
      | vlist xs => rw [hv] at hn; simp at hn
      | vdict kvs' => rw [hv] at hn; simp at hn
  obtain ⟨a, hfa⟩ := fromPyCleaned_ok x hx
  have htail : parseAuthors [PyVal.vdict y] = .ok [] := by
    rw [parseAuthors]
    simp only [hy, Option.elim]
    rw [parseAuthors]
    simp
  rw [parseAuthors, if_pos hcond, hfa, htail] at hau
  simp only [bind, Except.bind, pure, Except.pure, Except.ok.injEq] at hau
  obtain ⟨f1, hf1, h⟩ := except_bind_ok _ _ _ h
  obtain ⟨f2, hf2, h⟩ := except_bind_ok _ _ _ h
  obtain ⟨f3, hf3, h⟩ := except_bind_ok _ _ _ h
  obtain ⟨f4, hf4, h⟩ := except_bind_ok _ _ _ h
  obtain ⟨f5, hf5, h⟩ := except_bind_ok _ _ _ h
  obtain ⟨f6, hf6, h⟩ := except_bind_ok _ _ _ h
  obtain ⟨f7, hf7, h⟩ := except_bind_ok _ _ _ h
  obtain ⟨f8, hf8, h⟩ := except_bind_ok _ _ _ h
  obtain ⟨f9, hf9, h⟩ := except_bind_ok _ _ _ h
  obtain ⟨f10, hf10, h⟩ := except_bind_ok _ _ _ h
  obtain ⟨f11, hf11, h⟩ := except_bind_ok _ _ _ h
  obtain ⟨f12, hf12, h⟩ := except_bind_ok _ _ _ h
  obtain ⟨f13, hf13, h⟩ := except_bind_ok _ _ _ h
  obtain ⟨f14, hf14, h⟩ := except_bind_ok _ _ _ h
  obtain ⟨f15, hf15, h⟩ := except_bind_ok _ _ _ h
  obtain ⟨f16, hf16, h⟩ := except_bind_ok _ _ _ h
  have hctx : ctx.authors = au := by
    have hrec : (pure
        { company_name := f1, company_url := f2, industry := f3,
          description := f4, products := f5, target_audience := f6, competitors := f7,
          competitor_categories := f8, primary_region := f9, primary_country := f10,
          primary_language := f11, tone := f12, pain_points := f13,
          value_propositions := f14, use_cases := f15, content_themes := f16,
          voice_persona := vp, visual_identity := vi, authors := au } :
        Except String CompanyContext) = .ok ctx := h
    simp only [pure, Except.pure, Except.ok.injEq] at hrec
    rw [← hrec]
  exact ⟨a, hfa, by rw [hctx, ← hau]⟩

/-- Witness for `from_dict_two_authors` at a concrete mapping. -/
theorem from_dict_two_authors_witness :
    ∃ a, AuthorInfo.fromPyCleaned [("name", PyVal.vstr "A")] = .ok a ∧
      ({ authors := [{ name := "A" }] } : CompanyContext).authors = [a] := by
  exact from_dict_two_authors
    [("authors", PyVal.vlist [PyVal.vdict [("name", PyVal.vstr "A")], PyVal.vdict []])]
    [("name", PyVal.vstr "A")] [] rfl rfl rfl
    { authors := [{ name := "A" }] } rfl

/-! ## C4: fenced JSON recovery -/

theorem listStarts_self : ∀ (sep b : List Char), listStarts sep (sep ++ b) = true := by
  intro sep
  induction sep with
  | nil => intro b; rfl
  | cons c cs ih => intro b; simp [listStarts, ih]

/-- `splitFirst` finds nothing when the first separator character does
not occur. -/
theorem splitFirst_none (s0 : Char) (sep : List Char) :
    ∀ cs : List Char, (∀ c ∈ cs, c ≠ s0) → splitFirst (s0 :: sep) cs = none := by
  intro cs
  induction cs with
  | nil => intro h; rfl
  | cons c tl ih =>
    intro h
    rw [splitFirst]
    have hc : listStarts (s0 :: sep) (c :: tl) = false := by
      simp [listStarts]
      intro he
      exact absurd he.symm (h c (List.mem_cons_self c tl))
    rw [hc]
    simp only [Bool.false_eq_true, if_false]
    rw [ih (fun c hc' => h c (List.mem_cons_of_mem _ hc'))]

/-- `splitFirst` splits at the first occurrence of the separator. -/
theorem splitFirst_at (s0 : Char) (sep b : List Char) :
    ∀ a : List Char, (∀ c ∈ a, c ≠ s0) →
      splitFirst (s0 :: sep) (a ++ (s0 :: sep) ++ b) = some (a, b) := by
  intro a
  induction a with
  | nil =>
    intro _
    have hs : listStarts (s0 :: sep) (s0 :: (sep ++ b)) = true := by
      rw [← List.cons_append]
      exact listStarts_self _ _
    simp only [List.nil_append, List.cons_append, splitFirst, List.append_eq, hs, if_true]
    simp only [List.length_cons, List.drop_succ_cons, List.drop_left]
  | cons c a' ih =>
    intro h
    have hc : c ≠ s0 := h c (List.mem_cons_self _ _)
    rw [List.cons_append, List.cons_append, splitFirst]
    have hns : listStarts (s0 :: sep) (c :: (a' ++ (s0 :: sep) ++ b)) = false := by
      simp [listStarts]
      intro he
      exact absurd he.symm hc
    rw [hns]
    simp only [Bool.false_eq_true, if_false]
    rw [ih (fun c hc' => h c (List.mem_cons_of_mem _ hc'))]

/-- A separator-free prefix passes through `splitFirst` untouched. -/
theorem splitFirst_prepend (s0 : Char) (sep : List Char) :
    ∀ (a t : List Char), (∀ c ∈ a, c ≠ s0) →
      splitFirst (s0 :: sep) (a ++ t) =
        (splitFirst (s0 :: sep) t).map (fun p => (a ++ p.1, p.2)) := by
  intro a
  induction a with
  | nil =>
    intro t _
    simp only [List.nil_append]
    cases splitFirst (s0 :: sep) t with
    | none => rfl
    | some p => rfl
  | cons c a' ih =>
    intro t h
    have hc : c ≠ s0 := h c (List.mem_cons_self _ _)
    rw [List.cons_append, splitFirst]
    have hns : listStarts (s0 :: sep) (c :: (a' ++ t)) = false := by
      simp [listStarts]
      intro he
      exact absurd he.symm hc
    rw [hns]
    simp only [Bool.false_eq_true, if_false]
    rw [ih t (fun c hc' => h c (List.mem_cons_of_mem _ hc'))]
    cases splitFirst (s0 :: sep) t with
    | none => rfl
    | some p => rfl

/-- The remainder returned by `splitFirst` is strictly shorter. -/
theorem splitFirst_shorter (s0 : Char) (sep : List Char) :
    ∀ (cs a b : List Char), splitFirst (s0 :: sep) cs = some (a, b) → b.length < cs.length := by
  intro cs
  induction cs with
  | nil => intro a b h; simp [splitFirst, listStarts] at h
  | cons c tl ih =>
    intro a b h
    rw [splitFirst] at h
    by_cases hs : listStarts (s0 :: sep) (c :: tl) = true
    · rw [hs] at h
      simp only [if_true] at h
      cases h
      simp only [List.length_cons, List.length_drop]
      omega
    · rw [Bool.not_eq_true] at hs
      rw [hs] at h
      simp only [Bool.false_eq_true, if_false] at h
      cases hsf : splitFirst (s0 :: sep) tl with
      | none => rw [hsf] at h; cases h
      | some p =>
        rw [hsf] at h
        obtain ⟨a', b'⟩ := p
        simp only [Option.some.injEq, Prod.mk.injEq] at h
        obtain ⟨-, h2⟩ := h
        rw [← h2]
        have := ih a' b' hsf
        simp only [List.length_cons]
        omega

/-- `splitGo` is independent of the fuel once the fuel exceeds the
input length. -/
theorem splitGo_fuel (s0 : Char) (sep : List Char) :
    ∀ (f1 : Nat) (cs : List Char) (f2 : Nat), cs.length < f1 → cs.length < f2 →
      splitGo (s0 :: sep) f1 cs = splitGo (s0 :: sep) f2 cs := by
  intro f1
  induction f1 with
  | zero => intro cs f2 h; omega
  | succ f ih =>
    intro cs f2 h1 h2
    cases f2 with
    | zero => omega
    | succ f2' =>
      cases hsf : splitFirst (s0 :: sep) cs with
      | none => simp only [splitGo, hsf]
      | some p =>
        obtain ⟨a, b⟩ := p
        have hb := splitFirst_shorter s0 sep cs a b hsf
        simp only [splitGo, hsf]
        rw [ih b f2' (by omega) (by omega)]

/-- Unfolding `pySplit` at a found separator. -/
theorem pySplit_of_splitFirst (s sep : String) (s0 : Char) (sepTl : List Char)
    (hsep : sep.data = s0 :: sepTl) (a b : List Char)
    (hsf : splitFirst sep.data s.data = some (a, b)) :
    pySplit s sep = (⟨a⟩ : String) :: pySplit (⟨b⟩ : String) sep := by
  have hb : b.length < s.data.length := by
    rw [hsep] at hsf
    exact splitFirst_shorter s0 sepTl s.data a b hsf
  rw [pySplit, pySplit]
  have h1 : splitGo sep.data (s.data.length + 1) s.data =
      a :: splitGo sep.data s.data.length b := by
    cases hc : s.data with
    | nil => rw [hc] at hsf; rw [hsep] at hsf; simp [splitFirst, listStarts, hsep] at hsf
    | cons x xs =>
      rw [← hc]
      rw [splitGo, hsf]
  rw [h1, List.map_cons]
  congr 1
  rw [hsep, splitGo_fuel s0 sepTl s.data.length b (b.length + 1) (by omega) (by omega)]

/-- `pySplit` without any separator occurrence returns the whole string. -/
theorem pySplit_none (t sep : String) (h : splitFirst sep.data t.data = none) :
    pySplit t sep = [t] := by
  rw [pySplit]
  cases hl : t.data.length with
  | zero =>
    rw [splitGo, h]
    simp
  | succ n =>
    rw [splitGo, h]
    simp

/-- `splitGo` never returns the empty list. -/
theorem splitGo_ne_nil (sep : List Char) (f : Nat) (cs : List Char) :
    splitGo sep f cs ≠ [] := by
  cases f with
  | zero => simp [splitGo]
  | succ f' =>
    rw [splitGo]
    cases splitFirst sep cs with
    | none => simp
    | some p => simp

theorem listHas_here (sep b : List Char) (hne : sep ≠ []) : listHas sep (sep ++ b) = true := by
  cases sep with
  | nil => exact absurd rfl hne
  | cons c cs =>
    rw [List.cons_append, listHas_cons]
    rw [← List.cons_append, listStarts_self]
    rfl

/-- A separator embedded in a string is found by `listHas`. -/
theorem listHas_append (a sep b : List Char) (hne : sep ≠ []) :
    listHas sep (a ++ sep ++ b) = true := by
  induction a with
  | nil => simpa using listHas_here sep b hne
  | cons c a' ih =>
    simp only [List.cons_append, List.append_assoc] at *
    rw [listHas_cons, ih]
    simp

/-- `splitFirst` for the ```json separator on three backticks followed
by backtick-free text: a match exactly when the text continues with
`json`. -/
theorem splitFirst_ticks (post : List Char) (hp : ∀ c ∈ post, c ≠ '`') :
    splitFirst "```json".data ('`' :: '`' :: '`' :: post) =
      if listStarts "json".data post then some ([], post.drop 4) else none := by
  have hsep : "```json".data = ['`', '`', '`', 'j', 's', 'o', 'n'] := rfl
  by_cases hj : listStarts "json".data post = true
  · have hs : listStarts "```json".data ('`' :: '`' :: '`' :: post) = true := by
      rw [hsep]
      simp only [listStarts]
      simpa [listStarts] using hj
    rw [splitFirst, hs]
    simp only [if_true, hj]
    simp [hsep]
  · rw [Bool.not_eq_true] at hj
    have hs0 : listStarts "```json".data ('`' :: '`' :: '`' :: post) = false := by
      rw [hsep]
      simp only [listStarts]
      simpa [listStarts] using hj
    rw [splitFirst, hs0]
    simp only [Bool.false_eq_true, if_false, hj]
    have hs1 : listStarts "```json".data ('`' :: '`' :: post) = false := by
      rw [hsep]
      cases post with
      | nil => rfl
      | cons p0 ps =>
        have hd : ('`' = p0) = False :=
          eq_false (fun he => (hp p0 (List.mem_cons_self _ _)) he.symm)
        simp [listStarts, hd]
    rw [splitFirst, hs1]
    simp only [Bool.false_eq_true, if_false]
    have hs2 : listStarts "```json".data ('`' :: post) = false := by
      rw [hsep]
      cases post with
      | nil => rfl
      | cons p0 ps =>
        have hd : ('`' = p0) = False :=
          eq_false (fun he => (hp p0 (List.mem_cons_self _ _)) he.symm)
        simp [listStarts, hd]
    rw [splitFirst, hs2]
    simp only [Bool.false_eq_true, if_false]
    rw [splitFirst_none '`' ['`', '`', 'j', 's', 'o', 'n'] post hp]

/-- `str.strip()` leaves a string alone when neither end is whitespace. -/
theorem listStrip_noop (l : List Char)
    (hh : ∀ x, l.head? = some x → pyWs x = false)
    (hl : ∀ x, l.getLast? = some x → pyWs x = false) : listStrip l = l := by
  unfold listStrip
  have h1 : l.dropWhile pyWs = l := by
    cases l with
    | nil => rfl
    | cons c tl =>
      rw [List.dropWhile_cons_of_neg]
      simp [hh c rfl]
  rw [h1]
  have h2 : l.reverse.dropWhile pyWs = l.reverse := by
    cases hr : l.reverse with
    | nil => rfl
    | cons c tl =>
      have hc : l.getLast? = some c := by
        rw [← List.head?_reverse, hr]
        rfl
      rw [List.dropWhile_cons_of_neg]
      simp [hl c hc]
  rw [h2, List.reverse_reverse]

/-- C4: a response that wraps a valid JSON object in a ```json fence,
with no stray backticks in the surrounding prose or in the object text
itself, is parsed to that object by `_parse_json` (the fence-extraction
path of lines 218-227 followed by the direct `json.loads`). -/
theorem parse_json_fenced (pre j post : String) (m : List (String × Json))
    (hm : json_loads j = .ok (Json.obj m))
    (hjh : j.data.head? = some '{')
    (hjl : j.data.getLast? = some '}')
    (hpre : ∀ c ∈ pre.data, c ≠ '`')
    (hjt : ∀ c ∈ j.data, c ≠ '`')
    (hpost : ∀ c ∈ post.data, c ≠ '`') :
    parse_json (pre ++ "```json" ++ j ++ "```" ++ post) = .ok (Json.obj m) := by
  have hsepJ : "```json".data = '`' :: ['`', '`', 'j', 's', 'o', 'n'] := rfl
  have hsepT : "```".data = '`' :: ['`', '`'] := rfl
  set rest : List Char := j.data ++ ('`' :: '`' :: '`' :: post.data) with hrest
  have hdata : (pre ++ "```json" ++ j ++ "```" ++ post).data =
      pre.data ++ "```json".data ++ rest := by
    simp [String.data_append, hrest]
  -- stage 1: the fence check and first split
  have hhas : strHas (pre ++ "```json" ++ j ++ "```" ++ post) "```json" = true := by
    rw [strHas, hdata]
    exact listHas_append pre.data "```json".data rest (by rw [hsepJ]; simp)
  have hsf0 : splitFirst "```json".data (pre ++ "```json" ++ j ++ "```" ++ post).data =
      some (pre.data, rest) := by
    rw [hdata, hsepJ]
    exact splitFirst_at '`' ['`', '`', 'j', 's', 'o', 'n'] rest pre.data hpre
  have hparts : pySplit (pre ++ "```json" ++ j ++ "```" ++ post) "```json" =
      (⟨pre.data⟩ : String) :: pySplit (⟨rest⟩ : String) "```json" :=
    pySplit_of_splitFirst _ _ '`' ['`', '`', 'j', 's', 'o', 'n'] hsepJ pre.data rest hsf0
  -- the text recovered from the fences is exactly j
  have hsf1 : splitFirst "```json".data rest =
      (splitFirst "```json".data ('`' :: '`' :: '`' :: post.data)).map
        (fun p => (j.data ++ p.1, p.2)) := by
    rw [hrest, hsepJ]
    exact splitFirst_prepend '`' ['`', '`', 'j', 's', 'o', 'n'] j.data _ hjt
  have hticks := splitFirst_ticks post.data hpost
  have hstage1 : (pySplit (⟨rest⟩ : String) "```json").getD 0 "" = j ∨
      ((pySplit (⟨rest⟩ : String) "```json").getD 0 "" = (⟨rest⟩ : String) ∧
        splitFirst "```json".data rest = none) := by
    by_cases hjson : listStarts "json".data post.data = true
    · left
      rw [hticks, if_pos hjson] at hsf1
      simp only [Option.map_some', List.append_nil] at hsf1
      rw [pySplit_of_splitFirst (⟨rest⟩ : String) _ '`' ['`', '`', 'j', 's', 'o', 'n'] hsepJ
        _ _ hsf1]
      rfl
    · right
      rw [Bool.not_eq_true] at hjson
      rw [hticks, if_neg (by simp [hjson])] at hsf1
      simp only [Option.map_none'] at hsf1
      rw [pySplit_none _ _ hsf1]
      exact ⟨rfl, hsf1⟩
  -- stage 2: the inner generic-fence split always recovers j
  have hsplit3 : ∀ X : String, X = j ∨ (X = (⟨rest⟩ : String) ∧
      splitFirst "```json".data rest = none) →
      (pySplit X "```").getD 0 "" = j := by
    intro X hX
    rcases hX with hX | ⟨hX, -⟩
    all_goals rw [hX]
    · have hnone : splitFirst "```".data j.data = none := by
        rw [hsepT]
        exact splitFirst_none _ _ _ hjt
      rw [pySplit_none _ _ hnone]
      rfl
    · have hsf2 : splitFirst "```".data rest = some (j.data, post.data) := by
        rw [hrest, hsepT]
        rw [splitFirst_prepend '`' ['`', '`'] j.data _ hjt]
        have : splitFirst ('`' :: ['`', '`']) ('`' :: '`' :: '`' :: post.data) =
            some ([], post.data) := by
          rw [splitFirst]
          have hs : listStarts ('`' :: ['`', '`']) ('`' :: '`' :: '`' :: post.data) = true := by
            simp [listStarts]
          rw [hs]
          simp
        rw [this]
        simp
      rw [pySplit_of_splitFirst (⟨rest⟩ : String) _ '`' ['`', '`'] hsepT _ _ hsf2]
      rfl
  -- assemble the stages
  have hfence : fenceStrip (pre ++ "```json" ++ j ++ "```" ++ post) = j := by
    rw [fenceStrip.eq_def]
    rw [if_pos hhas]
    simp only [hparts]
    have hlen : ((⟨pre.data⟩ : String) :: pySplit (⟨rest⟩ : String) "```json").length > 1 := by
      simp only [List.length_cons]
      have := splitGo_ne_nil "```json".data ((⟨rest⟩ : String).data.length + 1)
        (⟨rest⟩ : String).data
      have hpos : 0 < (pySplit (⟨rest⟩ : String) "```json").length := by
        rw [pySplit]
        simp only [List.length_map]
        exact List.length_pos.mpr this
      omega
    rw [if_pos hlen]
    have hget : ((⟨pre.data⟩ : String) :: pySplit (⟨rest⟩ : String) "```json").getD 1 "" =
        (pySplit (⟨rest⟩ : String) "```json").getD 0 "" := rfl
    rw [hget, hsplit3 _ hstage1]
    rw [pyStrip]
    rw [listStrip_noop j.data
      (fun x hx => by rw [hjh] at hx; cases hx; rfl)
      (fun x hx => by rw [hjl] at hx; cases hx; rfl)]
  have hanchor : anchorObj j = .ok j := by
    rw [anchorObj]
    have hstart : strStarts j "\x7b" = true := by
      rw [strStarts]
      cases hd : j.data with
      | nil => rw [hd] at hjh; cases hjh
      | cons c tl =>
        rw [hd] at hjh
        have hc : c = '{' := by
          simpa using hjh
        rw [hc]
        simp [listStarts]
    rw [if_pos hstart]
  rw [parse_json, hfence, hanchor]
  show recoverJson j = .ok (Json.obj m)
  rw [recoverJson.eq_def, hm]

/-- C4 counterexample: the string \x7b"a": "```"\x7d is a valid JSON
object, but wrapping it in a ```json fence makes `_parse_json` fail,
because the fence split cuts at the backticks inside the string value;
so fenced parsing does not always agree with direct parsing. -/
theorem parse_json_fence_counterexample :
    json_loads "\x7b\"a\": \"```\"\x7d" = .ok (Json.obj [("a", Json.str "```")]) ∧
      parse_json ("```json" ++ "\x7b\"a\": \"```\"\x7d" ++ "```") = .error "Expecting value" :=
  ⟨rfl, rfl⟩

/-- C4 witness: a concrete fenced response with backtick-free prose and
object text parses to the object's mapping. -/
theorem parse_json_fenced_witness :
    parse_json ("Sure! " ++ "```json" ++ "\x7b\"a\": 1\x7d" ++ "```" ++ " done") =
      .ok (Json.obj [("a", Json.num "1")]) :=
  parse_json_fenced "Sure! " "\x7b\"a\": 1\x7d" " done" [("a", Json.num "1")]
    rfl rfl rfl (by decide) (by decide) (by decide)

/-! ## Scanner correctness for the balanced-brace extraction -/

/-- Run the extraction loop over a chunk without breaking: `none` when a
break occurs inside the chunk, otherwise the state after the chunk. -/
def scanChunk : List Char → SState → Option SState
  | [], st => some st
  | c :: cs, st =>
    match scanStep st c with
    | (_, true) => none
    | (st', false) => scanChunk cs st'

theorem scanChunk_cons (c : Char) (u : List Char) (st st' : SState)
    (h : scanStep st c = (st', false)) : scanChunk (c :: u) st = scanChunk u st' := by
  simp only [scanChunk, h]

theorem scanChunk_append (u v : List Char) (st : SState) :
    scanChunk (u ++ v) st = (scanChunk u st).bind (scanChunk v) := by
  induction u generalizing st with
  | nil => simp [scanChunk]
  | cons c u' ih =>
    rw [List.cons_append, scanChunk, scanChunk]
    match scanStep st c with
    | (_, true) => simp
    | (st', false) => exact ih st'

theorem scanGo_chunk (u : List Char) (st f : SState) (h : scanChunk u st = some f) :
    ∀ (v : List Char) (i : Nat), scanGo (u ++ v) i st = scanGo v (i + u.length) f := by
  induction u generalizing st with
  | nil =>
    intro v i
    simp [scanChunk] at h
    simp [h]
  | cons c u' ih =>
    intro v i
    rw [scanChunk] at h
    rw [List.cons_append, scanGo]
    match hs : scanStep st c with
    | (_, true) => rw [hs] at h; simp at h
    | (st', false) =>
      rw [hs] at h
      simp only at h
      simp only [if_false, Bool.false_eq_true]
      rw [ih st' h v (i + 1)]
      congr 1
      simp [List.length_cons]
      omega

/-- Characters the scanner ignores entirely outside strings. -/
def neutralChar (c : Char) : Bool :=
  !(c = '\\') && !(c = '"') && !(c = '{') && !(c = '}')

theorem scanStep_neutral (b : Int) (c : Char) (h : neutralChar c = true) :
    scanStep ⟨b, false, false⟩ c = (⟨b, false, false⟩, false) := by
  simp only [neutralChar, Bool.and_eq_true, Bool.not_eq_true', decide_eq_false_iff_not] at h
  obtain ⟨⟨⟨h1, h2⟩, h3⟩, h4⟩ := h
  simp [scanStep, h1, h2, h3, h4]

theorem scanChunk_neutral (u : List Char) (h : ∀ c ∈ u, neutralChar c = true) (b : Int) :
    scanChunk u ⟨b, false, false⟩ = some ⟨b, false, false⟩ := by
  induction u with
  | nil => rfl
  | cons c u' ih =>
    rw [scanChunk, scanStep_neutral b c (h c (List.mem_cons_self _ _))]
    exact ih (fun c hc => h c (List.mem_cons_of_mem _ hc))

theorem jsonWs_neutral (c : Char) (h : jsonWs c = true) : neutralChar c = true := by
  simp only [jsonWs, Bool.or_eq_true, decide_eq_true_eq] at h
  rcases h with ((h | h) | h) | h <;> subst h <;> decide

theorem jsonDigit_neutral (c : Char) (h : jsonDigit c = true) : neutralChar c = true := by
  simp only [jsonDigit, Bool.and_eq_true, decide_eq_true_eq] at h
  obtain ⟨h1, h2⟩ := h
  simp only [neutralChar, Bool.and_eq_true, Bool.not_eq_true', decide_eq_false_iff_not]
  refine ⟨⟨⟨?_, ?_⟩, ?_⟩, ?_⟩ <;> rintro rfl <;> revert h1 h2 <;> decide

/-- A chunk the extraction loop passes through without a break and
without net effect, from every positive brace depth. -/
def ChunkOK (u : List Char) : Prop :=
  ∀ b : Int, 1 ≤ b → scanChunk u ⟨b, false, false⟩ = some ⟨b, false, false⟩

theorem chunkOK_append (u v : List Char) (hu : ChunkOK u) (hv : ChunkOK v) :
    ChunkOK (u ++ v) := by
  intro b hb
  rw [scanChunk_append, hu b hb]
  exact hv b hb

theorem chunkOK_neutral (u : List Char) (h : ∀ c ∈ u, neutralChar c = true) : ChunkOK u :=
  fun b _ => scanChunk_neutral u h b

theorem chunkOK_ws (u : List Char) (h : ∀ c ∈ u, jsonWs c = true) : ChunkOK u :=
  chunkOK_neutral u (fun c hc => jsonWs_neutral c (h c hc))

theorem scanStep_open (st : SState) (hs : st.inStr = false) (he : st.esc = false) :
    scanStep st '{' = ({ st with brace := st.brace + 1 }, false) := by
  simp [scanStep, hs, he]

theorem scanStep_close (st : SState) (hs : st.inStr = false) (he : st.esc = false) :
    scanStep st '}' = ({ st with brace := st.brace - 1 }, decide (st.brace - 1 = 0)) := by
  simp [scanStep, hs, he]

theorem scanStep_quote (st : SState) (he : st.esc = false) :
    scanStep st '"' = ({ st with inStr := !st.inStr }, false) := by
  simp [scanStep, he]

theorem scanStep_escaped (b : Int) (i : Bool) (c : Char) :
    scanStep ⟨b, i, true⟩ c = (⟨b, i, false⟩, false) := by
  simp [scanStep]

theorem scanStep_bs_instr (b : Int) :
    scanStep ⟨b, true, false⟩ '\\' = (⟨b, true, true⟩, false) := by
  simp [scanStep]

theorem scanStep_instr (c : Char) (hq : c ≠ '"') (hb : c ≠ '\\') (b : Int) :
    scanStep ⟨b, true, false⟩ c = (⟨b, true, false⟩, false) := by
  simp [scanStep, hq, hb]

theorem hexDigit_ne_quote (c : Char) (h : hexDigit c = true) : c ≠ '"' := by
  rintro rfl
  revert h
  decide

theorem hexDigit_ne_bs (c : Char) (h : hexDigit c = true) : c ≠ '\\' := by
  rintro rfl
  revert h
  decide

/-- A string body accepted by `strTail` is scanned from in-string state
back to out-of-string state at the closing quote, with no break and no
brace-count change. -/
theorem strTail_scan : ∀ (fuel : Nat) (cs raw rest : List Char),
    strTail fuel cs = some (raw, rest) →
    cs = raw ++ '"' :: rest ∧
      ∀ b : Int, scanChunk (raw ++ ['"']) ⟨b, true, false⟩ = some ⟨b, false, false⟩ := by
  intro fuel
  induction fuel with
  | zero => intro cs raw rest h; simp [strTail] at h
  | succ fuel ih =>
    intro cs raw rest h
    match cs with
    | [] => simp [strTail] at h
    | c :: cs' =>
      simp only [strTail] at h
      by_cases hq : c = '"'
      · rw [if_pos hq] at h
        injection h with h'
        injection h' with h1 h2
        subst h1; subst h2; subst hq
        refine ⟨rfl, fun b => ?_⟩
        simp [scanChunk, scanStep]
      · rw [if_neg hq] at h
        by_cases hbs : c = '\\'
        · rw [if_pos hbs] at h
          match cs' with
          | [] => simp at h
          | e :: cs'' =>
            simp only at h
            by_cases hesc : escChar e = true
            · rw [if_pos hesc] at h
              match hst : strTail fuel cs'' with
              | none => rw [hst] at h; simp at h
              | some (raw', rest') =>
                rw [hst] at h
                simp only [Option.some.injEq, Prod.mk.injEq] at h
                obtain ⟨h1, h2⟩ := h
                subst h1; subst h2; subst hbs
                obtain ⟨hd, hscan⟩ := ih cs'' raw' rest' hst
                refine ⟨by rw [hd]; rfl, fun b => ?_⟩
                rw [List.cons_append, List.cons_append,
                  scanChunk_cons _ _ _ _ (scanStep_bs_instr b),
                  scanChunk_cons _ _ _ _ (scanStep_escaped b true e)]
                exact hscan b
            · rw [if_neg (by simpa using hesc)] at h
              by_cases hu : e = 'u'
              · rw [if_pos hu] at h
                rcases cs'' with _ | ⟨h1, _ | ⟨h2, _ | ⟨h3, _ | ⟨h4, cs3⟩⟩⟩⟩
                · simp at h
                · simp at h
                · simp at h
                · simp at h
                · simp only at h
                  by_cases hhex : (hexDigit h1 && hexDigit h2 && hexDigit h3 && hexDigit h4) = true
                  · rw [if_pos hhex] at h
                    simp only [Bool.and_eq_true] at hhex
                    obtain ⟨⟨⟨hx1, hx2⟩, hx3⟩, hx4⟩ := hhex
                    match hst : strTail fuel cs3 with
                    | none => rw [hst] at h; simp at h
                    | some (raw', rest') =>
                      rw [hst] at h
                      simp only [Option.some.injEq, Prod.mk.injEq] at h
                      obtain ⟨ha, hb2⟩ := h
                      subst ha; subst hb2; subst hbs; subst hu
                      obtain ⟨hd, hscan⟩ := ih cs3 raw' rest' hst
                      refine ⟨by rw [hd]; rfl, fun b => ?_⟩
                      rw [List.cons_append, List.cons_append, List.cons_append,
                        List.cons_append, List.cons_append, List.cons_append,
                        scanChunk_cons _ _ _ _ (scanStep_bs_instr b),
                        scanChunk_cons _ _ _ _ (scanStep_escaped b true 'u'),
                        scanChunk_cons _ _ _ _ (scanStep_instr h1
                          (hexDigit_ne_quote h1 hx1) (hexDigit_ne_bs h1 hx1) b),
                        scanChunk_cons _ _ _ _ (scanStep_instr h2
                          (hexDigit_ne_quote h2 hx2) (hexDigit_ne_bs h2 hx2) b),
                        scanChunk_cons _ _ _ _ (scanStep_instr h3
                          (hexDigit_ne_quote h3 hx3) (hexDigit_ne_bs h3 hx3) b),
                        scanChunk_cons _ _ _ _ (scanStep_instr h4
                          (hexDigit_ne_quote h4 hx4) (hexDigit_ne_bs h4 hx4) b)]
                      exact hscan b
                  · rw [if_neg hhex] at h
                    simp at h
              · rw [if_neg hu] at h
                simp at h
        · rw [if_neg hbs] at h
          by_cases hctl : c.toNat < 32
          · rw [if_pos hctl] at h
            simp at h
          · rw [if_neg hctl] at h
            match hst : strTail fuel cs' with
            | none => rw [hst] at h; simp at h
            | some (raw', rest') =>
              rw [hst] at h
              simp only [Option.some.injEq, Prod.mk.injEq] at h
              obtain ⟨ha, hb2⟩ := h
              subst ha; subst hb2
              obtain ⟨hd, hscan⟩ := ih cs' raw' rest' hst
              refine ⟨by rw [hd]; rfl, fun b => ?_⟩
              rw [List.cons_append, scanChunk_cons _ _ _ _ (scanStep_instr c hq hbs b)]
              exact hscan b

theorem listStarts_decomp (p : List Char) :
    ∀ cs : List Char, listStarts p cs = true → cs = p ++ cs.drop p.length := by
  induction p with
  | nil => intro cs _; rfl
  | cons c p' ih =>
    intro cs h
    cases cs with
    | nil => simp [listStarts] at h
    | cons x xs =>
      simp only [listStarts, Bool.and_eq_true, decide_eq_true_eq] at h
      obtain ⟨h1, h2⟩ := h
      subst h1
      simpa using ih xs h2

theorem takeDigits_decomp : ∀ cs : List Char,
    cs = (takeDigits cs).1 ++ (takeDigits cs).2 ∧
      ∀ c ∈ (takeDigits cs).1, jsonDigit c = true := by
  intro cs
  induction cs with
  | nil => simp [takeDigits]
  | cons c cs' ih =>
    by_cases hd : jsonDigit c = true
    · obtain ⟨ih1, ih2⟩ := ih
      simp only [takeDigits, hd, if_true]
      constructor
      · rw [List.cons_append, ← ih1]
      · intro x hx
        rcases List.mem_cons.mp hx with hx | hx
        · subst hx; exact hd
        · exact ih2 x hx
    · simp [takeDigits, hd]

theorem intTail_decomp (cs ip rest : List Char) (h : intTail cs = some (ip, rest)) :
    cs = ip ++ rest ∧ ∀ c ∈ ip, jsonDigit c = true := by
  cases cs with
  | nil => simp [intTail] at h
  | cons c cs' =>
    simp only [intTail] at h
    by_cases h0 : c = '0'
    · rw [if_pos h0] at h
      simp only [Option.some.injEq, Prod.mk.injEq] at h
      obtain ⟨h1, h2⟩ := h
      subst h1; subst h2; subst h0
      exact ⟨rfl, by intro x hx; simp at hx; subst hx; decide⟩
    · rw [if_neg h0] at h
      by_cases hd : jsonDigit c = true
      · rw [if_pos hd] at h
        simp only [Option.some.injEq, Prod.mk.injEq] at h
        obtain ⟨h1, h2⟩ := h
        obtain ⟨t1, t2⟩ := takeDigits_decomp cs'
        subst h1; subst h2
        constructor
        · rw [List.cons_append, ← t1]
        · intro x hx
          rcases List.mem_cons.mp hx with hx | hx
          · subst hx; exact hd
          · exact t2 x hx
      · rw [if_neg hd] at h
        cases h

theorem fracPart_decomp (cs : List Char) :
    cs = (fracPart cs).1 ++ (fracPart cs).2 ∧
      ∀ c ∈ (fracPart cs).1, neutralChar c = true := by
  match cs with
  | [] => simp [fracPart]
  | c :: cs' =>
    by_cases hc : c = '.'
    · subst hc
      obtain ⟨t1, t2⟩ := takeDigits_decomp cs'
      match htd : takeDigits cs' with
      | ([], r) => simp [fracPart, htd]
      | (d :: ds, r) =>
        rw [htd] at t1 t2
        simp only [fracPart, htd]
        constructor
        · simpa using t1
        · intro x hx
          rcases List.mem_cons.mp hx with hx | hx
          · subst hx; decide
          · exact jsonDigit_neutral x (t2 x hx)
    · have hfp : fracPart (c :: cs') = ([], c :: cs') := by
        rw [fracPart.eq_def]
        split
        · rename_i heq
          injection heq with h1 h2
          exact absurd h1 hc
        · rfl
      simp [hfp]

theorem expPart_decomp (cs : List Char) :
    cs = (expPart cs).1 ++ (expPart cs).2 ∧
      ∀ c ∈ (expPart cs).1, neutralChar c = true := by
  match cs with
  | [] => simp [expPart]
  | c :: cs' =>
    by_cases he : (c = 'e' || c = 'E') = true
    · have hcn : neutralChar c = true := by
        have h' : c = 'e' ∨ c = 'E' := by simpa using he
        rcases h' with h | h <;> subst h <;> decide
      match cs' with
      | [] => simp [expPart, he]
      | s :: cs'' =>
        by_cases hs : (s = '+' || s = '-') = true
        · have hsn : neutralChar s = true := by
            have h' : s = '+' ∨ s = '-' := by simpa using hs
            rcases h' with h | h <;> subst h <;> decide
          obtain ⟨t1, t2⟩ := takeDigits_decomp cs''
          match htd : takeDigits cs'' with
          | ([], r) => simp [expPart, he, hs, htd]
          | (d :: ds, r) =>
            rw [htd] at t1 t2
            simp only at t1 t2
            simp only [expPart, he, hs, htd, Bool.false_eq_true, if_true, if_false]
            refine ⟨?_, ?_⟩
            · rw [List.cons_append, List.cons_append, ← t1]
            · intro x hx
              rcases List.mem_cons.mp hx with hx | hx
              · subst hx; exact hcn
              rcases List.mem_cons.mp hx with hx' | hx'
              · subst hx'; exact hsn
              · exact jsonDigit_neutral x (t2 x hx')
        · obtain ⟨t1, t2⟩ := takeDigits_decomp (s :: cs'')
          match htd : takeDigits (s :: cs'') with
          | ([], r) => simp [expPart, he, hs, htd]
          | (d :: ds, r) =>
            rw [htd] at t1 t2
            simp only at t1 t2
            simp only [expPart, he, hs, htd, Bool.false_eq_true, if_true, if_false]
            refine ⟨?_, ?_⟩
            · rw [List.cons_append, ← t1]
            · intro x hx
              rcases List.mem_cons.mp hx with hx | hx
              · subst hx; exact hcn
              · exact jsonDigit_neutral x (t2 x hx)
    · have hexp : expPart (c :: cs') = ([], c :: cs') := by
        rw [expPart.eq_def]
        simp only
        rw [if_neg (by simpa using he)]
      simp [hexp]

theorem numTail_decomp (cs ds rest : List Char) (h : numTail cs = some (ds, rest)) :
    cs = ds ++ rest ∧ ∀ c ∈ ds, neutralChar c = true := by
  rw [numTail] at h
  match hit : intTail cs with
  | none => rw [hit] at h; cases h
  | some (ip, r1) =>
    rw [hit] at h
    simp only at h
    obtain ⟨i1, i2⟩ := intTail_decomp cs ip r1 hit
    obtain ⟨f1, f2⟩ := fracPart_decomp r1
    obtain ⟨e1, e2⟩ := expPart_decomp (fracPart r1).2
    match hfp : fracPart r1 with
    | (fp, r2) =>
      rw [hfp] at h f1 f2 e1 e2
      simp only at h f1 f2 e1 e2
      match hep : expPart r2 with
      | (ep, r3) =>
        rw [hep] at h e1 e2
        simp only at h e1 e2
        simp only [Option.some.injEq, Prod.mk.injEq] at h
        obtain ⟨hd2, hr2⟩ := h
        subst hd2; subst hr2
        refine ⟨?_, ?_⟩
        · rw [i1, f1, e1]
          simp [List.append_assoc]
        · intro x hx
          rcases List.mem_append.mp hx with hx | hx
          rcases List.mem_append.mp hx with hx' | hx'
          · exact jsonDigit_neutral x (i2 x hx')
          · exact f2 x hx'
          · exact e2 x hx

theorem scanStep_openb (b : Int) :
    scanStep ⟨b, false, false⟩ '{' = (⟨b + 1, false, false⟩, false) := by
  simp [scanStep]

theorem scanStep_closeb (b : Int) (hb : ¬ b - 1 = 0) :
    scanStep ⟨b, false, false⟩ '}' = (⟨b - 1, false, false⟩, false) := by
  simp [scanStep, hb]

theorem scanStep_quoteb (b : Int) :
    scanStep ⟨b, false, false⟩ '"' = (⟨b, true, false⟩, false) := by
  simp [scanStep]

/-- The chunk of a complete string token (both quotes included) is
invisible to the brace scanner. -/
theorem chunkOK_key (f : Nat) (cs raw rest : List Char) (h : strTail f cs = some (raw, rest)) :
    ChunkOK ('"' :: (raw ++ ['"'])) := by
  intro b _
  rw [scanChunk_cons _ _ _ _ (scanStep_quoteb b)]
  exact (strTail_scan f cs raw rest h).2 b

theorem chunkOK_char (c : Char) (h : neutralChar c = true) : ChunkOK [c] :=
  chunkOK_neutral [c] (by intro x hx; simp at hx; subst hx; exact h)

theorem chunkOK_take_ws (l : List Char) : ChunkOK (l.takeWhile jsonWs) :=
  chunkOK_ws _ (fun _ hc => List.mem_takeWhile_imp hc)

theorem chunkOK_nil : ChunkOK [] := fun _ _ => rfl

theorem chunkOK_cons_neutral (c : Char) (h : neutralChar c = true) (X : List Char)
    (hX : ChunkOK X) : ChunkOK (c :: X) := by
  intro b hb
  rw [scanChunk_cons _ _ _ _ (scanStep_neutral b c h)]
  exact hX b hb

/-- A balanced object token `\x7b … \x7d` whose inner parts never break
the scan is itself invisible to the scan from any positive depth. -/
theorem chunkOK_braces (w u' : List Char) (hw : ChunkOK w) (hu : ChunkOK u') :
    ChunkOK ('{' :: (w ++ (u' ++ ['}']))) := by
  intro b hb
  have hstep : scanStep ⟨b + 1, false, false⟩ '}' = (⟨b, false, false⟩, false) := by
    rw [scanStep_closeb (b + 1) (by omega)]
    simp
  rw [scanChunk_cons _ _ _ _ (scanStep_openb b), scanChunk_append, hw (b + 1) (by omega),
    Option.some_bind, scanChunk_append, hu (b + 1) (by omega), Option.some_bind,
    scanChunk_cons _ _ _ _ hstep]
  rfl

/-- The scanner-correctness core: every chunk the JSON recogniser
consumes as a value is scanned, from any positive brace depth, with no
break and no net state change; the members (resp. elements) of an
object (resp. array) likewise up to the closing `\x7d` (resp. `]`). -/
theorem scan_all : ∀ fuel : Nat,
    (∀ cs v rest, parseValue fuel cs = some (v, rest) →
      ∃ u, cs = u ++ rest ∧ ChunkOK u) ∧
    (∀ cs ms rest, parseMembers fuel cs = some (ms, rest) →
      ∃ u, cs = u ++ '}' :: rest ∧ ChunkOK u) ∧
    (∀ cs vs rest, parseElems fuel cs = some (vs, rest) →
      ∃ u, cs = u ++ ']' :: rest ∧ ChunkOK u) := by
  intro fuel
  induction fuel with
  | zero =>
    refine ⟨?_, ?_, ?_⟩ <;> intro cs x rest h <;>
      simp [parseValue, parseMembers, parseElems] at h
  | succ fuel ih =>
    obtain ⟨ihV, ihM, ihE⟩ := ih
    refine ⟨?_, ?_, ?_⟩
    · -- parseValue
      intro cs v rest h
      match cs with
      | [] => simp [parseValue] at h
      | c :: cs' =>
        simp only [parseValue] at h
        by_cases hoc : c = '{'
        · rw [if_pos hoc] at h
          subst hoc
          split at h
          · rename_i t r heq
            simp only [Option.some.injEq, Prod.mk.injEq] at h
            obtain ⟨hv, hr⟩ := h
            subst hv; subst hr
            refine ⟨'{' :: (cs'.takeWhile jsonWs ++ ([] ++ ['}'])), ?_, ?_⟩
            · have hcs : cs' = cs'.takeWhile jsonWs ++ '}' :: r := by
                conv_lhs => rw [← List.takeWhile_append_dropWhile jsonWs cs']
                rw [heq]
              conv_lhs => rw [hcs]
              simp
            · exact chunkOK_braces _ _ (chunkOK_take_ws cs') chunkOK_nil
          · split at h
            · exact absurd h (by simp)
            · rename_i ms r heq2
              simp only [Option.some.injEq, Prod.mk.injEq] at h
              obtain ⟨hv, hr⟩ := h
              subst hv; subst hr
              obtain ⟨u', hu1, hu2⟩ := ihM _ ms r heq2
              refine ⟨'{' :: (cs'.takeWhile jsonWs ++ (u' ++ ['}'])), ?_, ?_⟩
              · have hcs : cs' = cs'.takeWhile jsonWs ++ (u' ++ '}' :: r) := by
                  conv_lhs => rw [← List.takeWhile_append_dropWhile jsonWs cs']
                  rw [hu1]
                conv_lhs => rw [hcs]
                simp
              · exact chunkOK_braces _ _ (chunkOK_take_ws cs') hu2
        · rw [if_neg hoc] at h
          by_cases harr : c = '['
          · rw [if_pos harr] at h
            subst harr
            split at h
            · rename_i t r heq
              simp only [Option.some.injEq, Prod.mk.injEq] at h
              obtain ⟨hv, hr⟩ := h
              subst hv; subst hr
              refine ⟨'[' :: (cs'.takeWhile jsonWs ++ [']']), ?_, ?_⟩
              · have hcs : cs' = cs'.takeWhile jsonWs ++ ']' :: r := by
                  conv_lhs => rw [← List.takeWhile_append_dropWhile jsonWs cs']
                  rw [heq]
                conv_lhs => rw [hcs]
                simp
              · exact chunkOK_cons_neutral '[' (by decide) _
                  (chunkOK_append _ _ (chunkOK_take_ws cs') (chunkOK_char ']' (by decide)))
            · split at h
              · exact absurd h (by simp)
              · rename_i vs r heq2
                simp only [Option.some.injEq, Prod.mk.injEq] at h
                obtain ⟨hv, hr⟩ := h
                subst hv; subst hr
                obtain ⟨u', hu1, hu2⟩ := ihE _ vs r heq2
                refine ⟨'[' :: (cs'.takeWhile jsonWs ++ (u' ++ [']'])), ?_, ?_⟩
                · have hcs : cs' = cs'.takeWhile jsonWs ++ (u' ++ ']' :: r) := by
                    conv_lhs => rw [← List.takeWhile_append_dropWhile jsonWs cs']
                    rw [hu1]
                  conv_lhs => rw [hcs]
                  simp
                · exact chunkOK_cons_neutral '[' (by decide) _
                    (chunkOK_append _ _ (chunkOK_take_ws cs')
                      (chunkOK_append _ _ hu2 (chunkOK_char ']' (by decide))))
          · rw [if_neg harr] at h
            by_cases hq : c = '"'
            · rw [if_pos hq] at h
              subst hq
              split at h
              · exact absurd h (by simp)
              · rename_i raw r heq
                simp only [Option.some.injEq, Prod.mk.injEq] at h
                obtain ⟨hv, hr⟩ := h
                subst hv; subst hr
                refine ⟨'"' :: (raw ++ ['"']), ?_, chunkOK_key _ _ _ _ heq⟩
                have hcs : cs' = raw ++ '"' :: r := (strTail_scan _ _ _ _ heq).1
                conv_lhs => rw [hcs]
                simp
            · rw [if_neg hq] at h
              by_cases hlt : c = 't'
              · rw [if_pos hlt] at h
                subst hlt
                by_cases hlit : listStarts ['r', 'u', 'e'] cs' = true
                · rw [if_pos hlit] at h
                  simp only [Option.some.injEq, Prod.mk.injEq] at h
                  obtain ⟨hv, hr⟩ := h
                  subst hv; subst hr
                  refine ⟨'t' :: ['r', 'u', 'e'], ?_, chunkOK_neutral _ (by decide)⟩
                  conv_lhs => rw [listStarts_decomp ['r', 'u', 'e'] cs' hlit]
                  rfl
                · rw [if_neg hlit] at h
                  exact absurd h (by simp)
              · rw [if_neg hlt] at h
                by_cases hlf : c = 'f'
                · rw [if_pos hlf] at h
                  subst hlf
                  by_cases hlit : listStarts ['a', 'l', 's', 'e'] cs' = true
                  · rw [if_pos hlit] at h
                    simp only [Option.some.injEq, Prod.mk.injEq] at h
                    obtain ⟨hv, hr⟩ := h
                    subst hv; subst hr
                    refine ⟨'f' :: ['a', 'l', 's', 'e'], ?_, chunkOK_neutral _ (by decide)⟩
                    conv_lhs => rw [listStarts_decomp ['a', 'l', 's', 'e'] cs' hlit]
                    rfl
                  · rw [if_neg hlit] at h
                    exact absurd h (by simp)
                · rw [if_neg hlf] at h
                  by_cases hln : c = 'n'
                  · rw [if_pos hln] at h
                    subst hln
                    by_cases hlit : listStarts ['u', 'l', 'l'] cs' = true
                    · rw [if_pos hlit] at h
                      simp only [Option.some.injEq, Prod.mk.injEq] at h
                      obtain ⟨hv, hr⟩ := h
                      subst hv; subst hr
                      refine ⟨'n' :: ['u', 'l', 'l'], ?_, chunkOK_neutral _ (by decide)⟩
                      conv_lhs => rw [listStarts_decomp ['u', 'l', 'l'] cs' hlit]
                      rfl
                    · rw [if_neg hlit] at h
                      exact absurd h (by simp)
                  · rw [if_neg hln] at h
                    by_cases hlN : c = 'N'
                    · rw [if_pos hlN] at h
                      subst hlN
                      by_cases hlit : listStarts ['a', 'N'] cs' = true
                      · rw [if_pos hlit] at h
                        simp only [Option.some.injEq, Prod.mk.injEq] at h
                        obtain ⟨hv, hr⟩ := h
                        subst hv; subst hr
                        refine ⟨'N' :: ['a', 'N'], ?_, chunkOK_neutral _ (by decide)⟩
                        conv_lhs => rw [listStarts_decomp ['a', 'N'] cs' hlit]
                        rfl
                      · rw [if_neg hlit] at h
                        exact absurd h (by simp)
                    · rw [if_neg hlN] at h
                      by_cases hlI : c = 'I'
                      · rw [if_pos hlI] at h
                        subst hlI
                        by_cases hlit :
                            listStarts ['n', 'f', 'i', 'n', 'i', 't', 'y'] cs' = true
                        · rw [if_pos hlit] at h
                          simp only [Option.some.injEq, Prod.mk.injEq] at h
                          obtain ⟨hv, hr⟩ := h
                          subst hv; subst hr
                          refine ⟨'I' :: ['n', 'f', 'i', 'n', 'i', 't', 'y'], ?_,
                            chunkOK_neutral _ (by decide)⟩
                          conv_lhs =>
                            rw [listStarts_decomp ['n', 'f', 'i', 'n', 'i', 't', 'y'] cs' hlit]
                          rfl
                        · rw [if_neg hlit] at h
                          exact absurd h (by simp)
                      · rw [if_neg hlI] at h
                        by_cases hlm : c = '-'
                        · rw [if_pos hlm] at h
                          subst hlm
                          by_cases hlit :
                              listStarts ['I', 'n', 'f', 'i', 'n', 'i', 't', 'y'] cs' = true
                          · rw [if_pos hlit] at h
                            simp only [Option.some.injEq, Prod.mk.injEq] at h
                            obtain ⟨hv, hr⟩ := h
                            subst hv; subst hr
                            refine ⟨'-' :: ['I', 'n', 'f', 'i', 'n', 'i', 't', 'y'], ?_,
                              chunkOK_neutral _ (by decide)⟩
                            conv_lhs =>
                              rw [listStarts_decomp
                                ['I', 'n', 'f', 'i', 'n', 'i', 't', 'y'] cs' hlit]
                            rfl
                          · rw [if_neg hlit] at h
                            split at h
                            · exact absurd h (by simp)
                            · rename_i ds r heq
                              simp only [Option.some.injEq, Prod.mk.injEq] at h
                              obtain ⟨hv, hr⟩ := h
                              subst hv; subst hr
                              obtain ⟨hd1, hd2⟩ := numTail_decomp cs' ds r heq
                              refine ⟨'-' :: ds, ?_, chunkOK_cons_neutral '-' (by decide) _
                                (chunkOK_neutral _ hd2)⟩
                              rw [hd1]; rfl
                        · rw [if_neg hlm] at h
                          by_cases hdg : jsonDigit c = true
                          · rw [if_pos hdg] at h
                            split at h
                            · exact absurd h (by simp)
                            · rename_i ds r heq
                              simp only [Option.some.injEq, Prod.mk.injEq] at h
                              obtain ⟨hv, hr⟩ := h
                              subst hv; subst hr
                              obtain ⟨hd1, hd2⟩ := numTail_decomp (c :: cs') ds r heq
                              exact ⟨ds, hd1, chunkOK_neutral _ hd2⟩
                          · rw [if_neg hdg] at h
                            exact absurd h (by simp)
    · -- parseMembers
      intro cs ms rest h
      match cs with
      | [] => simp [parseMembers] at h
      | c :: cs' =>
        by_cases hc : c = '"'
        · subst hc
          simp only [parseMembers] at h
          split at h
          · exact absurd h (by simp)
          · rename_i kraw r1 heq1
            split at h
            · rename_i r2 heq2
              split at h
              · exact absurd h (by simp)
              · rename_i v r3 heq3
                split at h
                · rename_i r4 heq4
                  split at h
                  · exact absurd h (by simp)
                  · rename_i ms' r5 heq5
                    simp only [Option.some.injEq, Prod.mk.injEq] at h
                    obtain ⟨hv, hr⟩ := h
                    subst hv; subst hr
                    obtain ⟨uv, hv1, hv2⟩ := ihV _ v r3 heq3
                    obtain ⟨u2, hm1, hm2⟩ := ihM _ ms' r5 heq5
                    refine ⟨('"' :: (kraw ++ ['"'])) ++ (r1.takeWhile jsonWs ++ (':' ::
                      (r2.takeWhile jsonWs ++ (uv ++ (r3.takeWhile jsonWs ++ (',' ::
                        (r4.takeWhile jsonWs ++ u2))))))), ?_, ?_⟩
                    · have hk : cs' = kraw ++ '"' :: r1 := (strTail_scan _ _ _ _ heq1).1
                      have h1 : r1 = r1.takeWhile jsonWs ++ ':' :: r2 := by
                        conv_lhs => rw [← List.takeWhile_append_dropWhile jsonWs r1]
                        rw [heq2]
                      have h2 : r2 = r2.takeWhile jsonWs ++ (uv ++ r3) := by
                        conv_lhs => rw [← List.takeWhile_append_dropWhile jsonWs r2]
                        rw [hv1]
                      have h3 : r3 = r3.takeWhile jsonWs ++ ',' :: r4 := by
                        conv_lhs => rw [← List.takeWhile_append_dropWhile jsonWs r3]
                        rw [heq4]
                      have h4 : r4 = r4.takeWhile jsonWs ++ (u2 ++ '}' :: r5) := by
                        conv_lhs => rw [← List.takeWhile_append_dropWhile jsonWs r4]
                        rw [hm1]
                      conv_lhs => rw [hk, h1, h2, h3, h4]
                      simp
                    · refine chunkOK_append _ _ (chunkOK_key _ _ _ _ heq1)
                        (chunkOK_append _ _ (chunkOK_take_ws r1)
                          (chunkOK_cons_neutral ':' (by decide) _
                            (chunkOK_append _ _ (chunkOK_take_ws r2)
                              (chunkOK_append _ _ hv2
                                (chunkOK_append _ _ (chunkOK_take_ws r3)
                                  (chunkOK_cons_neutral ',' (by decide) _
                                    (chunkOK_append _ _ (chunkOK_take_ws r4) hm2)))))))
                · rename_i r4 heq4
                  simp only [Option.some.injEq, Prod.mk.injEq] at h
                  obtain ⟨hv, hr⟩ := h
                  subst hv; subst hr
                  obtain ⟨uv, hv1, hv2⟩ := ihV _ v r3 heq3
                  refine ⟨('"' :: (kraw ++ ['"'])) ++ (r1.takeWhile jsonWs ++ (':' ::
                    (r2.takeWhile jsonWs ++ (uv ++ r3.takeWhile jsonWs)))), ?_, ?_⟩
                  · have hk : cs' = kraw ++ '"' :: r1 := (strTail_scan _ _ _ _ heq1).1
                    have h1 : r1 = r1.takeWhile jsonWs ++ ':' :: r2 := by
                      conv_lhs => rw [← List.takeWhile_append_dropWhile jsonWs r1]
                      rw [heq2]
                    have h2 : r2 = r2.takeWhile jsonWs ++ (uv ++ r3) := by
                      conv_lhs => rw [← List.takeWhile_append_dropWhile jsonWs r2]
                      rw [hv1]
                    have h3 : r3 = r3.takeWhile jsonWs ++ '}' :: r4 := by
                      conv_lhs => rw [← List.takeWhile_append_dropWhile jsonWs r3]
                      rw [heq4]
                    conv_lhs => rw [hk, h1, h2, h3]
                    simp
                  · refine chunkOK_append _ _ (chunkOK_key _ _ _ _ heq1)
                      (chunkOK_append _ _ (chunkOK_take_ws r1)
                        (chunkOK_cons_neutral ':' (by decide) _
                          (chunkOK_append _ _ (chunkOK_take_ws r2)
                            (chunkOK_append _ _ hv2 (chunkOK_take_ws r3)))))
                · exact absurd h (by simp)
            · exact absurd h (by simp)
        · simp only [parseMembers] at h
          split at h
          · rename_i tail heq
            injection heq with hch htl
            exact absurd hch hc
          · exact absurd h (by simp)
    · -- parseElems
      intro cs vs rest h
      simp only [parseElems] at h
      split at h
      · exact absurd h (by simp)
      · rename_i v r1 heq1
        obtain ⟨uv, hv1, hv2⟩ := ihV _ v r1 heq1
        split at h
        · rename_i r2 heq2
          split at h
          · exact absurd h (by simp)
          · rename_i vs' r3 heq3
            simp only [Option.some.injEq, Prod.mk.injEq] at h
            obtain ⟨hv, hr⟩ := h
            subst hv; subst hr
            obtain ⟨u2, he1, he2⟩ := ihE _ vs' r3 heq3
            refine ⟨uv ++ (r1.takeWhile jsonWs ++ (',' :: (r2.takeWhile jsonWs ++ u2))),
              ?_, ?_⟩
            · have h1 : r1 = r1.takeWhile jsonWs ++ ',' :: r2 := by
                conv_lhs => rw [← List.takeWhile_append_dropWhile jsonWs r1]
                rw [heq2]
              have h2 : r2 = r2.takeWhile jsonWs ++ (u2 ++ ']' :: r3) := by
                conv_lhs => rw [← List.takeWhile_append_dropWhile jsonWs r2]
                rw [he1]
              conv_lhs => rw [hv1, h1, h2]
              simp
            · refine chunkOK_append _ _ hv2
                (chunkOK_append _ _ (chunkOK_take_ws r1)
                  (chunkOK_cons_neutral ',' (by decide) _
                    (chunkOK_append _ _ (chunkOK_take_ws r2) he2)))
        · rename_i r2 heq2
          simp only [Option.some.injEq, Prod.mk.injEq] at h
          obtain ⟨hv, hr⟩ := h
          subst hv; subst hr
          refine ⟨uv ++ r1.takeWhile jsonWs, ?_, ?_⟩
          · have h1 : r1 = r1.takeWhile jsonWs ++ ']' :: r2 := by
              conv_lhs => rw [← List.takeWhile_append_dropWhile jsonWs r1]
              rw [heq2]
            conv_lhs => rw [hv1, h1]
            simp
          · exact chunkOK_append _ _ hv2 (chunkOK_take_ws r1)
        · exact absurd h (by simp)

theorem scanGo_break (v : List Char) (i : Nat) :
    scanGo ('}' :: v) i ⟨1, false, false⟩ = i + 1 := by
  simp [scanGo, scanStep]

/-- When the recogniser consumes `\x7b cs'` completely as one JSON value,
the balanced-brace extraction of `\x7b cs' tail` breaks exactly at the end
of the object, whatever follows. -/
theorem findEnd_value (fuel : Nat) (cs' tail : List Char) (v : Json)
    (hp : parseValue (fuel + 1) ('{' :: cs') = some (v, [])) :
    findEnd (('{' :: cs') ++ tail) = ('{' :: cs').length := by
  obtain ⟨-, ihM, -⟩ := scan_all fuel
  simp only [parseValue] at hp
  rw [if_pos trivial] at hp
  split at hp
  · rename_i t r heq
    simp only [Option.some.injEq, Prod.mk.injEq] at hp
    obtain ⟨-, hr⟩ := hp
    subst hr
    have hcs : cs' = cs'.takeWhile jsonWs ++ ['}'] := by
      conv_lhs => rw [← List.takeWhile_append_dropWhile jsonWs cs']
      rw [heq]
    have hchunk : scanChunk ('{' :: cs'.takeWhile jsonWs) ⟨0, false, false⟩ =
        some ⟨1, false, false⟩ := by
      rw [scanChunk_cons _ _ _ _ (scanStep_openb 0)]
      have h1 := chunkOK_take_ws cs' 1 (by omega)
      simpa using h1
    have hsplit : ('{' :: cs') ++ tail =
        ('{' :: cs'.takeWhile jsonWs) ++ ('}' :: tail) := by
      conv_lhs => rw [hcs]
      simp
    rw [findEnd, hsplit, scanGo_chunk _ _ _ hchunk, scanGo_break]
    conv_rhs => rw [hcs]
    simp [List.length_append]
  · split at hp
    · exact absurd hp (by simp)
    · rename_i ms r heq2
      simp only [Option.some.injEq, Prod.mk.injEq] at hp
      obtain ⟨-, hr⟩ := hp
      subst hr
      obtain ⟨u2, hm1, hm2⟩ := ihM _ ms _ heq2
      have hcs : cs' = cs'.takeWhile jsonWs ++ (u2 ++ ['}']) := by
        conv_lhs => rw [← List.takeWhile_append_dropWhile jsonWs cs']
        rw [hm1]
      have hchunk : scanChunk ('{' :: (cs'.takeWhile jsonWs ++ u2)) ⟨0, false, false⟩ =
          some ⟨1, false, false⟩ := by
        rw [scanChunk_cons _ _ _ _ (scanStep_openb 0), scanChunk_append]
        have h01 : (0 : Int) + 1 = 1 := by norm_num
        rw [h01, chunkOK_take_ws cs' 1 (by omega), Option.some_bind, hm2 1 (by omega)]
      have hsplit : ('{' :: cs') ++ tail =
          ('{' :: (cs'.takeWhile jsonWs ++ u2)) ++ ('}' :: tail) := by
        conv_lhs => rw [hcs]
        simp
      rw [findEnd, hsplit, scanGo_chunk _ _ _ hchunk, scanGo_break]
      conv_rhs => rw [hcs]
      simp [List.length_append]
      omega

/-- When both the direct parse and the repaired parse fail, `recoverJson`
falls back to the balanced-brace extraction and parses the extracted
prefix. -/
theorem recoverJson_extract (text : String) (v : Json)
    (h1 : (json_loads text).isOk = false)
    (h2 : (json_loads (repairJson text)).isOk = false)
    (hpos : 0 < findEnd text.data)
    (h3 : json_loads ⟨text.data.take (findEnd text.data)⟩ = .ok v) :
    recoverJson text = .ok v := by
  cases hd1 : json_loads text with
  | ok w => rw [hd1] at h1; simp [Except.toBool] at h1
  | error e1 =>
    cases hd2 : json_loads (repairJson text) with
    | ok w => rw [hd2] at h2; simp [Except.toBool] at h2
    | error e2 =>
      simp only [recoverJson, hd1, hd2]
      rw [if_pos hpos, h3]

/-- C1 (amended): for a response made of a valid JSON object (starting
with `\x7b`, ending with `\x7d`) followed by trailing prose, and
containing no markdown fence, `_parse_json` returns exactly the object's
mapping whenever the direct and repaired whole-text parses fail (as they
do for genuine trailing prose): the balanced-brace extraction cuts
exactly at the object's closing brace, unaffected by brace characters
inside string values. -/
theorem parse_json_obj_prose (objStr prose : String) (m : List (String × Json))
    (hv : json_loads objStr = .ok (Json.obj m))
    (hjh : objStr.data.head? = some '{')
    (hjl : objStr.data.getLast? = some '}')
    (hF1 : strHas (objStr ++ prose) "```json" = false)
    (hF2 : strHas (objStr ++ prose) "```" = false)
    (hdirect : (json_loads (objStr ++ prose)).isOk = false)
    (hrepair : (json_loads (repairJson (objStr ++ prose))).isOk = false) :
    parse_json (objStr ++ prose) = .ok (Json.obj m) := by
  have hv0 := hv
  obtain ⟨tl, htl⟩ : ∃ tl, objStr.data = '{' :: tl := by
    cases hd : objStr.data with
    | nil => rw [hd] at hjh; cases hjh
    | cons c t =>
      rw [hd] at hjh
      simp at hjh
      exact ⟨t, by rw [hjh]⟩
  have hws : objStr.data.dropWhile jsonWs = objStr.data := by
    rw [htl]
    rw [List.dropWhile_cons_of_neg]
    decide
  simp only [json_loads, hws] at hv
  split at hv
  · exact absurd hv (by simp)
  · rename_i v rest heqp
    by_cases hemp : (rest.dropWhile jsonWs).isEmpty = true
    · rw [if_pos hemp] at hv
      simp only [Except.ok.injEq] at hv
      subst hv
      have hrest : rest = [] := by
        by_contra hne
        obtain ⟨V, -, -⟩ := scan_all (2 * objStr.data.length + 2)
        obtain ⟨u, hu, -⟩ := V _ _ _ heqp
        have hlast : objStr.data.getLast? = rest.getLast? := by
          rw [hu]
          exact List.getLast?_append_of_ne_nil u hne
        have hallws : ∀ c ∈ rest, jsonWs c = true :=
          List.dropWhile_eq_nil_iff.mp (List.isEmpty_iff.mp hemp)
        have hlst : rest.getLast? = some (rest.getLast hne) := List.getLast?_eq_getLast rest hne
        rw [hjl, hlst] at hlast
        have hcl : '}' = rest.getLast hne := by simpa using hlast
        have := hallws _ (List.getLast_mem hne)
        rw [← hcl] at this
        exact absurd this (by decide)
      subst hrest
      have hdata : (objStr ++ prose).data = ('{' :: tl) ++ prose.data := by
        simp [htl]
      have hfe : findEnd ((objStr ++ prose).data) = objStr.data.length := by
        rw [hdata]
        rw [htl] at heqp
        rw [findEnd_value (2 * ('{' :: tl).length + 1) tl prose.data _ heqp]
        rw [htl]
      have hfence : fenceStrip (objStr ++ prose) = (objStr ++ prose) := by
        rw [fenceStrip.eq_def]
        rw [if_neg (by simp [hF1]), if_neg (by simp [hF2])]
      have hanchor : anchorObj (objStr ++ prose) = .ok (objStr ++ prose) := by
        rw [anchorObj]
        have hstart : strStarts (objStr ++ prose) "\x7b" = true := by
          rw [strStarts, hdata]
          simp [listStarts]
        rw [if_pos hstart]
      rw [parse_json, hfence, hanchor]
      show recoverJson (objStr ++ prose) = .ok (Json.obj m)
      refine recoverJson_extract _ _ hdirect hrepair ?_ ?_
      · rw [hfe, htl]
        simp
      · rw [hfe, hdata, htl]
        rw [List.take_left ('{' :: tl) prose.data]
        rw [← htl]
        have hob : (⟨objStr.data⟩ : String) = objStr := rfl
        rw [hob, hv0]
    · rw [if_neg hemp] at hv
      exact absurd hv (by simp)

/-- C1 counterexample: a valid JSON object followed by trailing prose
that happens to contain a ```json fence marker makes `_parse_json` fail
outright (the fence-stripping stage fires on the prose and discards the
object), so the claim does not hold for arbitrary trailing prose. -/
theorem parse_json_prose_counterexample :
    json_loads "\x7b\"a\": 1\x7d" = .ok (Json.obj [("a", Json.num "1")]) ∧
      parse_json ("\x7b\"a\": 1\x7d" ++ " ```json oops") =
        .error "Could not find JSON in response: oops" :=
  ⟨rfl, rfl⟩

/-- C1 witness: the spec's own example object, with braces inside the
string value, followed by plain trailing prose. -/
theorem parse_json_obj_prose_witness :
    parse_json ("\x7b\"a\": \"\x7dweird\x7b\"\x7d" ++ " trailing prose") =
      .ok (Json.obj [("a", Json.str "\x7dweird\x7b")]) :=
  parse_json_obj_prose "\x7b\"a\": \"\x7dweird\x7b\"\x7d" " trailing prose"
    [("a", Json.str "\x7dweird\x7b")] rfl rfl rfl rfl rfl rfl rfl
